import Mathlib

/-!
# B39: mnemonic codec (`src/index.js`)

A shallow embedding of the entropy/mnemonic codec of `src/index.js`.

Representation choices:

* a JavaScript string is a `List Char` (`Str`); bit strings are `Str` over the
  characters `'0'` and `'1'`, exactly as in the source;
* a `Buffer` is a `List Nat` whose entries are below 256;
* a thrown `Error` is the `error` branch of `Except JsError _`;
* the two library primitives the file imports, the SHA-256 digest of
  `create-hash` and `String.prototype.normalize('NFKD')`, are parameters
  (`sha256`, `nfkd`) of every operation that uses them.
-/

namespace B39

/-- A JavaScript string. -/
abbrev Str := List Char

/-- The contents of a `Buffer` (every entry is meant to be below 256). -/
abbrev Bytes := List Nat

/-- The errors `src/index.js` can raise: the two `throw new Error(...)` messages of
`mnemonicToEntropy` (the word-count check and the membership check throw the same
message), and the `TypeError` of calling `.map` on the `null` a failed
`String.prototype.match` returns. -/
inductive JsError where
  | invalidMnemonic
  | invalidMnemonicChecksum
  | typeError
  deriving DecidableEq, Repr

deriving instance DecidableEq for Except

/-! ## Library primitives -/

/-- Digits of `Number.prototype.toString(2)` for a non-negative integer, most significant
first; `fuel` bounds the number of digits produced. -/
def toString2Loop : Nat → Nat → Str → Str
  | 0, _, acc => acc
  | fuel + 1, n, acc =>
    if n < 2 then (if n = 0 then '0' else '1') :: acc
    else toString2Loop fuel (n / 2) ((if n % 2 = 0 then '0' else '1') :: acc)

/-- The call `x.toString(2)` for a non-negative integer `x`. -/
def toString2 (x : Nat) : Str := toString2Loop (x + 1) x []

/-- The call `x.toString(2)` for an integer `x` (a negative number prints a minus sign). -/
def intToString2 (x : Int) : Str :=
  if x < 0 then '-' :: toString2 x.natAbs else toString2 x.toNat

/-- The call `Array.prototype.join(sep)`. -/
def join (sep : Str) : List Str → Str
  | [] => []
  | [w] => w
  | w :: ws => w ++ sep ++ join sep ws

/-- The call `String.prototype.split(sep)` for a one-character separator. -/
def split (sep : Char) : Str → List Str
  | [] => [[]]
  | c :: cs =>
    if c = sep then [] :: split sep cs
    else
      match split sep cs with
      | [] => [[c]]
      | w :: ws => (c :: w) :: ws

/-- Successive matches of the greedy pattern `(.{1,n})` from the start of `s`. -/
def matchLoop (n : Nat) : Nat → Str → List Str
  | 0, _ => []
  | fuel + 1, s => if s = [] then [] else s.take n :: matchLoop n fuel (s.drop n)

/-- The call `s.match(/(.{1,n})/g)` on a string without line terminators: `none` is the
`null` returned when nothing matches (the empty string). -/
def regexMatch (n : Nat) (s : Str) : Option (List Str) :=
  if s = [] then none else some (matchLoop n s.length s)

/-- The search loop of `Array.prototype.indexOf`, at position `i` of the array. -/
def indexOfFrom (word : Str) : List Str → Nat → Int
  | [], _ => -1
  | w :: ws, i => if w = word then (i : Int) else indexOfFrom word ws (i + 1)

/-- The call `wordlist.indexOf(word)`: the first position of `word`, or `-1`. -/
def indexOf (wordlist : List Str) (word : Str) : Int := indexOfFrom word wordlist 0

/-- The call `Buffer.from(array)`: every entry is reduced to a byte. -/
def bufferFrom (arr : List Nat) : Bytes := arr.map (· % 256)

/-! ## Helper methods of `src/index.js` -/

/-- Source `normalize`: `(str || '').normalize('NFKD')`; `none` is an absent argument. -/
def normalize (nfkd : Str → Str) (str : Option Str) : Str := nfkd (str.getD [])

/-- Source `binaryToByte`: `parseInt(bin, 2)` on a string of binary digits. -/
def binaryToByte (bin : Str) : Nat :=
  bin.foldl (fun acc c => 2 * acc + (if c = '1' then 1 else 0)) 0

/-- The `while` loop of `lpad`; `fuel` bounds the number of iterations. -/
def lpadLoop (padString : Str) (length : Nat) : Nat → Str → Str
  | 0, str => str
  | fuel + 1, str =>
    if str.length < length then lpadLoop padString length fuel (padString ++ str) else str

/-- Source `lpad`: prepend `padString` while the string is shorter than `length`
(`length - str.length` iterations are enough for a non-empty `padString`). -/
def lpad (str padString : Str) (length : Nat) : Str :=
  lpadLoop padString length (length - str.length) str

/-- Source `bytesToBinary`. -/
def bytesToBinary (bytes : List Nat) : Str :=
  join [] (bytes.map fun x => lpad (toString2 x) ['0'] 8)

/-- Source `checksumBits`: `ENT / 32` is a quotient of numbers and `slice` truncates its
bound to an integer, hence the natural-number division. -/
def checksumBits (sha256 : Bytes → Bytes) (entropyBuffer : Bytes) : Str :=
  let hash := sha256 entropyBuffer
  let ENT := entropyBuffer.length * 8
  let CS := ENT / 32
  (bytesToBinary hash).take CS

/-! ## Exported operations -/

/-- The bit string `mnemonicToEntropy` builds from the words: each word index printed in
binary and padded to 11 characters. -/
def wordBits (wordlist : List Str) (words : List Str) : Str :=
  join [] (words.map fun word => lpad (intToString2 (indexOf wordlist word)) ['0'] 11)

/-- Source `mnemonicToEntropy`. -/
def mnemonicToEntropy (sha256 : Bytes → Bytes) (nfkd : Str → Str)
    (mnemonic : Option Str) (wordlist : List Str) : Except JsError Bytes :=
  let words := split ' ' (normalize nfkd mnemonic)
  if words.length % 3 ≠ 0 then .error .invalidMnemonic
  else
    let belongToList := words.all fun word => decide (indexOf wordlist word > -1)
    if !belongToList then .error .invalidMnemonic
    else
      let bits := wordBits wordlist words
      let dividerIndex := bits.length / 33 * 32
      let entropy := bits.take dividerIndex
      let checksum := bits.drop dividerIndex
      match regexMatch 8 entropy with
      | none => .error .typeError
      | some chunks =>
        let entropyBytes := chunks.map binaryToByte
        let entropyBuffer := bufferFrom entropyBytes
        let newChecksum := checksumBits sha256 entropyBuffer
        if newChecksum ≠ checksum then .error .invalidMnemonicChecksum
        else .ok entropyBuffer

/-- Source `entropyToMnemonic` on a `Buffer` (a hex string is first turned into a `Buffer`
by the library call `Buffer.from(entropy, 'hex')`, and the function continues from there).
An index outside the word list reads `undefined`, which `join` prints as the empty
string. -/
def entropyToMnemonic (sha256 : Bytes → Bytes) (entropy : Bytes)
    (wordlist : List Str) : Except JsError Str :=
  let entropyBits := bytesToBinary entropy
  let checksum := checksumBits sha256 entropy
  let bits := entropyBits ++ checksum
  match regexMatch 11 bits with
  | none => .error .typeError
  | some chunks =>
    let words := chunks.map fun binary =>
      let index := binaryToByte binary
      (wordlist[index]?).getD []
    .ok (join [' '] words)

/-- Source `generateMnemonic`: `strength` defaults to 128 when absent, the random source
receives the exact quotient `strength / 8`, and its result goes through `Buffer.from`. -/
def generateMnemonic (sha256 : Bytes → Bytes) (strength : Option Int) (rng : ℚ → List Nat)
    (wordlist : List Str) : Except JsError Str :=
  let entropy := bufferFrom (rng (((strength.getD 128 : Int) : ℚ) / 8))
  entropyToMnemonic sha256 entropy wordlist

/-- Source `validateMnemonic`: the `try`/`catch` around `mnemonicToEntropy`. -/
def validateMnemonic (sha256 : Bytes → Bytes) (nfkd : Str → Str)
    (mnemonic : Option Str) (wordlist : List Str) : Bool :=
  match mnemonicToEntropy sha256 nfkd mnemonic wordlist with
  | .ok _ => true
  | .error _ => false

/-! ## Predicates used in the statements -/

/-- A string over the characters `'0'` and `'1'`. -/
def IsBin (s : Str) : Prop := ∀ c ∈ s, c = '0' ∨ c = '1'

/-- Every entry is a byte: the list is the contents of a `Buffer`. -/
def IsBuffer (b : Bytes) : Prop := ∀ x ∈ b, x < 256

/-- The digest function returns a 32-byte `Buffer` on every input, as SHA-256 does. -/
def IsDigest (sha256 : Bytes → Bytes) : Prop :=
  ∀ b, (sha256 b).length = 32 ∧ IsBuffer (sha256 b)

/-- The normal form of two strings separated by a space is the two normal forms separated
by a space. NFKD has this property: it decomposes character by character, leaves U+0020
unchanged, and reorders combining marks only within runs that contain no starter such as
the space. -/
def NfkdKeepsSpace (nfkd : Str → Str) : Prop :=
  ∀ a b : Str, nfkd (a ++ ' ' :: b) = nfkd a ++ ' ' :: nfkd b

/-- A word list suitable for decoding what was encoded with it: exactly 2048 pairwise
distinct words, none containing a space, each in NFKD normal form. -/
structure GoodWordlist (nfkd : Str → Str) (wordlist : List Str) : Prop where
  length_eq : wordlist.length = 2048
  nodup : wordlist.Nodup
  no_space : ∀ w ∈ wordlist, ' ' ∉ w
  stable : ∀ w ∈ wordlist, nfkd w = w

/-- The word `wordlist[index]` as `join` prints it (`undefined` prints as nothing). -/
def wordAt (wordlist : List Str) (index : Nat) : Str := (wordlist[index]?).getD []

/-- A sample word list: the 2048 binary numerals `"0"`, `"1"`, `"10"`, ... -/
def demoWordlist : List Str := (List.range 2048).map toString2

/-- A sample digest function: 32 copies of the byte sum (plus 7) of the input. -/
def demoSha256 (b : Bytes) : Bytes := List.replicate 32 ((b.foldl (· + ·) 7) % 256)

/-- A sample normalizer: U+00E9 is replaced by `e` followed by U+0301 and every other
character is kept; it agrees with NFKD on the strings over ASCII and U+00E9. -/
def decomposeEAcute (s : Str) : Str :=
  s.flatMap fun c => if c = 'é' then ['e', '\u0301'] else [c]

/-- A sample word list of 2048 distinct space-free words that are not in NFKD normal form:
the binary numerals, each preceded by U+00E9. -/
def accentWordlist : List Str := (List.range 2048).map fun i => 'é' :: toString2 i

/-! ## Reference definitions, written from the specification -/

/-- The `w` low bits of `n`, most significant first: `n` zero-padded to `w` bits. -/
def bitsMsb : Nat → Nat → Str
  | 0, _ => []
  | w + 1, n => bitsMsb w (n / 2) ++ [if n % 2 = 1 then '1' else '0']

/-- A byte sequence read as a big-endian unsigned integer. -/
def beNat (bytes : Bytes) : Nat := bytes.foldl (fun acc x => acc * 256 + x) 0

/-- The integer `N` of the encoder: the entropy as a big-endian integer, shifted left by
`k` bits, plus the leading `k` bits of the 256-bit digest. -/
def encodeNumber (sha256 : Bytes → Bytes) (e : Bytes) (k : Nat) : Nat :=
  beNat e * 2 ^ k + beNat (sha256 e) / 2 ^ (256 - k)

/-- The bit-level reference encoder for `4 * k` bytes: word `i` of `3 * k` is
`wordlist[N / 2 ^ (11 * (3 * k - 1 - i)) mod 2048]`, and the words are joined with single
spaces. -/
def encodeRef (sha256 : Bytes → Bytes) (e : Bytes) (wordlist : List Str) (k : Nat) : Str :=
  join [' '] ((List.range (3 * k)).map fun i =>
    wordAt wordlist (encodeNumber sha256 e k / 2 ^ (11 * (3 * k - 1 - i)) % 2048))

/-- The digest as a binary string: each byte zero-padded to 8 bits, most significant bit
first, concatenated in order. -/
def digestBits (hash : Bytes) : Str := join [] (hash.map (bitsMsb 8))

/-- The concatenation of the words' indices, each zero-padded to 11 bits. -/
def indexBits (wordlist : List Str) (words : List Str) : Str :=
  join [] (words.map fun w => bitsMsb 11 (indexOf wordlist w).toNat)

/-- The places where `mnemonicToEntropy` can stop with an error, in source order: the
`throw` after the word-count test, the `throw` after the membership test, the `.map` on a
`null` match, and the `throw` after the checksum comparison. -/
inductive ThrowSite where
  | wordCount
  | membership
  | matchNull
  | checksum
  deriving DecidableEq, Repr

/-- The error raised at each place: the first two `throw` statements carry the same
message, `Invalid mnemonic`. -/
def ThrowSite.raised : ThrowSite → JsError
  | .wordCount => .invalidMnemonic
  | .membership => .invalidMnemonic
  | .matchNull => .typeError
  | .checksum => .invalidMnemonicChecksum

/-- Source `mnemonicToEntropy`, recording the place where it stops instead of the error
raised there. -/
def mnemonicToEntropyAt (sha256 : Bytes → Bytes) (nfkd : Str → Str)
    (mnemonic : Option Str) (wordlist : List Str) : Except ThrowSite Bytes :=
  let words := split ' ' (normalize nfkd mnemonic)
  if words.length % 3 ≠ 0 then .error .wordCount
  else
    let belongToList := words.all fun word => decide (indexOf wordlist word > -1)
    if !belongToList then .error .membership
    else
      let bits := wordBits wordlist words
      let dividerIndex := bits.length / 33 * 32
      let entropy := bits.take dividerIndex
      let checksum := bits.drop dividerIndex
      match regexMatch 8 entropy with
      | none => .error .matchNull
      | some chunks =>
        let entropyBytes := chunks.map binaryToByte
        let entropyBuffer := bufferFrom entropyBytes
        let newChecksum := checksumBits sha256 entropyBuffer
        if newChecksum ≠ checksum then .error .checksum
        else .ok entropyBuffer

/-! ## Seed derivation -/

/-- The UTF-8 encoding of one character. -/
def utf8Char (c : Char) : Bytes :=
  let n := c.toNat
  if n < 0x80 then [n]
  else if n < 0x800 then [0xC0 + n / 64, 0x80 + n % 64]
  else if n < 0x10000 then [0xE0 + n / 4096, 0x80 + n / 64 % 64, 0x80 + n % 64]
  else [0xF0 + n / 262144, 0x80 + n / 4096 % 64, 0x80 + n / 64 % 64, 0x80 + n % 64]

/-- The call `Buffer.from(str, 'utf8')`. -/
def utf8 (str : Str) : Bytes := str.flatMap utf8Char

/-- One lowercase hexadecimal digit. -/
def hexDigit (d : Nat) : Char := "0123456789abcdef".toList.getD d '0'

/-- The call `buffer.toString('hex')`: two lowercase hexadecimal digits per byte. -/
def toHex (buffer : Bytes) : Str :=
  buffer.flatMap fun x => [hexDigit (x / 16 % 16), hexDigit (x % 16)]

/-- Source `salt`: `'mnemonic' + (password || '')`. -/
def salt (password : Option Str) : Str := "mnemonic".toList ++ password.getD []

/-- Source `mnemonicToSeed`. The key-derivation function of the `pbkdf2` package is the
parameter `pbkdf2` (key, salt, iterations, key length, digest name); the promise the source
returns is the `Except` value: resolved with the derived key or rejected with the error of
the key derivation. -/
def mnemonicToSeed {ε : Type} (pbkdf2 : Bytes → Bytes → Nat → Nat → Str → Except ε Bytes)
    (nfkd : Str → Str) (mnemonic password : Option Str) : Except ε Bytes :=
  let mnemonicBuffer := utf8 (normalize nfkd mnemonic)
  let saltBuffer := utf8 (salt (some (normalize nfkd password)))
  pbkdf2 mnemonicBuffer saltBuffer 2048 64 "sha512".toList

/-- Source `mnemonicToSeedHex`. -/
def mnemonicToSeedHex {ε : Type} (pbkdf2 : Bytes → Bytes → Nat → Nat → Str → Except ε Bytes)
    (nfkd : Str → Str) (mnemonic password : Option Str) : Except ε Str :=
  (mnemonicToSeed pbkdf2 nfkd mnemonic password).map toHex

/-- The seed as the specification words it: the key derivation with 2048 iterations,
a 64-byte output and the SHA-512 based construction, applied to the UTF-8 bytes of the
normalized mnemonic as key and the UTF-8 bytes of `"mnemonic"` followed by the normalized
passphrase as salt. -/
def seedRef {ε : Type} (pbkdf2 : Bytes → Bytes → Nat → Nat → Str → Except ε Bytes)
    (nfkd : Str → Str) (mnemonic passphrase : Str) : Except ε Bytes :=
  pbkdf2 (utf8 (nfkd mnemonic)) (utf8 ("mnemonic".toList ++ nfkd passphrase)) 2048 64
    "sha512".toList

/-- A sample key-derivation function: `keylen` copies of the byte sum of key and salt. -/
def demoPbkdf2 (key saltBytes : Bytes) (_iterations keylen : Nat) (_digest : Str) :
    Except JsError Bytes :=
  .ok (List.replicate keylen ((key ++ saltBytes).foldl (· + ·) 0 % 256))

/-! ## SHA-256

The digest `createHash('sha256')` computes (FIPS 180-4), on 32-bit words kept as natural
numbers below `2 ^ 32`. It serves as a concrete digest in the examples; the theorems hold
for every digest function. -/

/-- The round constants of SHA-256. -/
def sha256K : List Nat := [
  0x428a2f98, 0x71374491, 0xb5c0fbcf, 0xe9b5dba5, 0x3956c25b, 0x59f111f1, 0x923f82a4,
  0xab1c5ed5, 0xd807aa98, 0x12835b01, 0x243185be, 0x550c7dc3, 0x72be5d74, 0x80deb1fe,
  0x9bdc06a7, 0xc19bf174, 0xe49b69c1, 0xefbe4786, 0x0fc19dc6, 0x240ca1cc, 0x2de92c6f,
  0x4a7484aa, 0x5cb0a9dc, 0x76f988da, 0x983e5152, 0xa831c66d, 0xb00327c8, 0xbf597fc7,
  0xc6e00bf3, 0xd5a79147, 0x06ca6351, 0x14292967, 0x27b70a85, 0x2e1b2138, 0x4d2c6dfc,
  0x53380d13, 0x650a7354, 0x766a0abb, 0x81c2c92e, 0x92722c85, 0xa2bfe8a1, 0xa81a664b,
  0xc24b8b70, 0xc76c51a3, 0xd192e819, 0xd6990624, 0xf40e3585, 0x106aa070, 0x19a4c116,
  0x1e376c08, 0x2748774c, 0x34b0bcb5, 0x391c0cb3, 0x4ed8aa4a, 0x5b9cca4f, 0x682e6ff3,
  0x748f82ee, 0x78a5636f, 0x84c87814, 0x8cc70208, 0x90befffa, 0xa4506ceb, 0xbef9a3f7,
  0xc67178f2]

/-- The initial hash value of SHA-256. -/
def sha256H0 : List Nat := [
  0x6a09e667, 0xbb67ae85, 0x3c6ef372, 0xa54ff53a, 0x510e527f, 0x9b05688c, 0x1f83d9ab,
  0x5be0cd19]

/-- Rotation of a 32-bit word to the right. -/
def rotr (x n : Nat) : Nat := (x >>> n ||| x <<< (32 - n)) % 2 ^ 32

/-- The function written as capital sigma 0 in the standard. -/
def bigSigma0 (x : Nat) : Nat := rotr x 2 ^^^ rotr x 13 ^^^ rotr x 22

/-- The function written as capital sigma 1 in the standard. -/
def bigSigma1 (x : Nat) : Nat := rotr x 6 ^^^ rotr x 11 ^^^ rotr x 25

/-- The function written as small sigma 0 in the standard. -/
def smallSigma0 (x : Nat) : Nat := rotr x 7 ^^^ rotr x 18 ^^^ x >>> 3

/-- The function written as small sigma 1 in the standard. -/
def smallSigma1 (x : Nat) : Nat := rotr x 17 ^^^ rotr x 19 ^^^ x >>> 10

/-- The choice function of SHA-256. -/
def shaCh (x y z : Nat) : Nat := (x &&& y) ^^^ ((2 ^ 32 - 1 - x) &&& z)

/-- The majority function of SHA-256. -/
def shaMaj (x y z : Nat) : Nat := (x &&& y) ^^^ (x &&& z) ^^^ (y &&& z)

/-- The message followed by the byte `80`, zero bytes up to 56 modulo 64, and the bit
length as 8 big-endian bytes. -/
def sha256Pad (msg : Bytes) : Bytes :=
  let len := msg.length
  let zeros := (119 - len % 64) % 64
  let bitLen := len * 8
  msg ++ 0x80 :: List.replicate zeros 0
    ++ (List.range 8).map fun i => bitLen / 2 ^ (8 * (7 - i)) % 256

/-- Bytes grouped four by four into big-endian 32-bit words. -/
def wordsOfBytes : Bytes → List Nat
  | a :: b :: c :: d :: rest => (((a * 256 + b) * 256 + c) * 256 + d) :: wordsOfBytes rest
  | _ => []

/-- The message schedule, most recent word first, extended by `n` words. -/
def scheduleRev : Nat → List Nat → List Nat
  | 0, ws => ws
  | n + 1, ws =>
    let w := (smallSigma1 (ws.getD 1 0) + ws.getD 6 0 + smallSigma0 (ws.getD 14 0)
      + ws.getD 15 0) % 2 ^ 32
    scheduleRev n (w :: ws)

/-- One round of the compression function on the eight working variables. -/
def sha256Round (s : List Nat) (kw : Nat × Nat) : List Nat :=
  match s with
  | [a, b, c, d, e, f, g, h] =>
    let t1 := (h + bigSigma1 e + shaCh e f g + kw.1 + kw.2) % 2 ^ 32
    let t2 := (bigSigma0 a + shaMaj a b c) % 2 ^ 32
    [(t1 + t2) % 2 ^ 32, a, b, c, (d + t1) % 2 ^ 32, e, f, g]
  | _ => s

/-- The compression of one 64-byte block into the hash value. -/
def sha256Block (hs : List Nat) (block : Bytes) : List Nat :=
  let w := (scheduleRev 48 (wordsOfBytes block).reverse).reverse
  let s := (sha256K.zip w).foldl sha256Round hs
  List.zipWith (fun x y => (x + y) % 2 ^ 32) hs s

/-- The compression of `n` successive blocks. -/
def sha256Blocks : Nat → List Nat → Bytes → List Nat
  | 0, hs, _ => hs
  | n + 1, hs, bytes => sha256Blocks n (sha256Block hs (bytes.take 64)) (bytes.drop 64)

/-- The SHA-256 digest of a byte sequence, as 32 bytes. -/
def fipsSha256 (msg : Bytes) : Bytes :=
  let padded := sha256Pad msg
  let hs := sha256Blocks (padded.length / 64) sha256H0 padded
  hs.flatMap fun w => [w / 2 ^ 24 % 256, w / 2 ^ 16 % 256, w / 2 ^ 8 % 256, w % 256]

/-- A sample word list of 2048 entries with a repeated word: the binary numerals, with the
entry at index 2 replaced by a second copy of `"0"`. -/
def dupWordlist : List Str := demoWordlist.set 2 ['0']

/-! ## Bit strings -/

theorem isBin_nil : IsBin [] := by
  intro c hc
  cases hc

theorem isBin_cons {c : Char} {s : Str} (hc : c = '0' ∨ c = '1') (hs : IsBin s) :
    IsBin (c :: s) := by
  intro d hd
  rcases List.mem_cons.mp hd with h | h
  · exact h ▸ hc
  · exact hs d h

theorem isBin_append {s t : Str} (hs : IsBin s) (ht : IsBin t) : IsBin (s ++ t) := by
  intro d hd
  rcases List.mem_append.mp hd with h | h
  · exact hs d h
  · exact ht d h

theorem isBin_take {s : Str} (n : Nat) (hs : IsBin s) : IsBin (s.take n) :=
  fun c hc => hs c (List.mem_of_mem_take hc)

theorem isBin_drop {s : Str} (n : Nat) (hs : IsBin s) : IsBin (s.drop n) :=
  fun c hc => hs c (List.mem_of_mem_drop hc)

theorem isBin_replicate (n : Nat) : IsBin (List.replicate n '0') := by
  intro c hc
  exact Or.inl (List.eq_of_mem_replicate hc)

theorem foldl_bin_init (s : Str) (a : Nat) :
    s.foldl (fun acc c => 2 * acc + (if c = '1' then 1 else 0)) a
      = a * 2 ^ s.length + binaryToByte s := by
  induction s generalizing a with
  | nil => simp [binaryToByte]
  | cons c s ih =>
    simp only [binaryToByte, List.foldl_cons, List.length_cons]
    rw [ih, ih (2 * 0 + _)]
    ring

theorem binaryToByte_nil : binaryToByte [] = 0 := rfl

theorem binaryToByte_cons (c : Char) (s : Str) :
    binaryToByte (c :: s) = (if c = '1' then 1 else 0) * 2 ^ s.length + binaryToByte s := by
  simp only [binaryToByte, List.foldl_cons]
  rw [foldl_bin_init]
  simp [binaryToByte]

theorem binaryToByte_append (s t : Str) :
    binaryToByte (s ++ t) = binaryToByte s * 2 ^ t.length + binaryToByte t := by
  simp only [binaryToByte, List.foldl_append]
  rw [foldl_bin_init]
  simp [binaryToByte]

theorem binaryToByte_lt (s : Str) : binaryToByte s < 2 ^ s.length := by
  induction s with
  | nil => simp [binaryToByte]
  | cons c s ih =>
    rw [binaryToByte_cons, List.length_cons, pow_succ]
    split <;> omega

theorem binaryToByte_replicate_zero (n : Nat) (s : Str) :
    binaryToByte (List.replicate n '0' ++ s) = binaryToByte s := by
  induction n with
  | zero => simp
  | succ n ih =>
    rw [List.replicate_succ, List.cons_append, binaryToByte_cons, ih]
    simp

theorem binaryToByte_inj {s t : Str} (hs : IsBin s) (ht : IsBin t)
    (hlen : s.length = t.length) (hval : binaryToByte s = binaryToByte t) : s = t := by
  induction s generalizing t with
  | nil =>
    cases t with
    | nil => rfl
    | cons d t => simp at hlen
  | cons c s ih =>
    cases t with
    | nil => simp at hlen
    | cons d t =>
      simp only [List.length_cons, Nat.add_right_cancel_iff] at hlen
      rw [binaryToByte_cons, binaryToByte_cons, hlen] at hval
      have h1 := binaryToByte_lt s
      have h2 := binaryToByte_lt t
      rw [hlen] at h1
      have hc := hs c (List.mem_cons_self _ _)
      have hd := ht d (List.mem_cons_self _ _)
      have hs' : IsBin s := fun x hx => hs x (List.mem_cons_of_mem _ hx)
      have ht' : IsBin t := fun x hx => ht x (List.mem_cons_of_mem _ hx)
      rcases hc with hc | hc <;> rcases hd with hd | hd <;> subst hc <;> subst hd <;>
        simp at hval
      · rw [ih hs' ht' hlen hval]
      · omega
      · omega
      · rw [ih hs' ht' hlen hval]

/-! ## `toString(2)` and `lpad` -/

theorem toString2Loop_isBin (fuel n : Nat) (acc : Str) (hacc : IsBin acc) :
    IsBin (toString2Loop fuel n acc) := by
  induction fuel generalizing n acc with
  | zero => simpa [toString2Loop] using hacc
  | succ fuel ih =>
    simp only [toString2Loop]
    split
    · apply isBin_cons _ hacc
      split <;> simp
    · apply ih
      apply isBin_cons _ hacc
      split <;> simp

theorem toString2Loop_value (fuel n : Nat) (acc : Str) (hn : n < 2 ^ fuel) :
    binaryToByte (toString2Loop fuel n acc) = n * 2 ^ acc.length + binaryToByte acc := by
  induction fuel generalizing n acc with
  | zero =>
    simp at hn
    simp [toString2Loop, hn]
  | succ fuel ih =>
    simp only [toString2Loop]
    split
    · rename_i h2
      rw [binaryToByte_cons]
      have : n = 0 ∨ n = 1 := by omega
      rcases this with h | h <;> subst h <;> simp
    · rw [ih (n / 2) _ (by rw [pow_succ] at hn; omega), binaryToByte_cons, List.length_cons,
        pow_succ]
      have hmod : n % 2 = 0 ∨ n % 2 = 1 := by omega
      have hdiv := Nat.div_add_mod n 2
      rcases hmod with h | h <;> simp [h] <;> rw [h] at hdiv
      · nth_rewrite 2 [← hdiv]
        ring
      · nth_rewrite 2 [← hdiv]
        ring

theorem toString2Loop_length (fuel n w : Nat) (acc : Str) (hn : n < 2 ^ w) (hw : 1 ≤ w) :
    (toString2Loop fuel n acc).length ≤ w + acc.length := by
  induction fuel generalizing n w acc with
  | zero => simp [toString2Loop]
  | succ fuel ih =>
    simp only [toString2Loop]
    split
    · simp
      omega
    · rename_i h2
      have hw2 : 2 ≤ w := by
        by_contra hlt
        have : w = 1 := by omega
        subst this
        simp at hn
        omega
      have hdiv : n / 2 < 2 ^ (w - 1) := by
        have : 2 ^ w = 2 ^ (w - 1) * 2 := by
          rw [← pow_succ]
          congr 1
          omega
        omega
      have := ih (n / 2) (w - 1) ((if n % 2 = 0 then '0' else '1') :: acc) hdiv (by omega)
      simp only [List.length_cons] at this
      omega

theorem toString2_isBin (x : Nat) : IsBin (toString2 x) :=
  toString2Loop_isBin _ _ _ isBin_nil

theorem binaryToByte_toString2 (x : Nat) : binaryToByte (toString2 x) = x := by
  unfold toString2
  rw [toString2Loop_value _ _ _ (Nat.lt_two_pow _ |>.trans_le (Nat.pow_le_pow_right (by decide) (Nat.le_succ _)))]
  simp [binaryToByte]

theorem toString2_length_le (x w : Nat) (hx : x < 2 ^ w) (hw : 1 ≤ w) :
    (toString2 x).length ≤ w := by
  simpa using toString2Loop_length (x + 1) x w [] hx hw

/-- The fuel of `toString2` is enough: a positive number prints with leading digit `1`
(the loop ends on its own test, not on the fuel). -/
theorem toString2Loop_head (fuel n : Nat) (acc : Str) (hpos : 0 < n) (hn : n < 2 ^ fuel) :
    ∃ rest, toString2Loop fuel n acc = '1' :: rest := by
  induction fuel generalizing n acc with
  | zero =>
    simp at hn
    omega
  | succ fuel ih =>
    simp only [toString2Loop]
    split
    · rename_i h2
      have : n = 1 := by omega
      subst this
      exact ⟨acc, by simp⟩
    · rename_i h2
      rw [pow_succ] at hn
      exact ih (n / 2) _ (by omega) (by omega)

theorem toString2_head (x : Nat) (hpos : 0 < x) : ∃ rest, toString2 x = '1' :: rest :=
  toString2Loop_head (x + 1) x [] hpos
    (Nat.lt_two_pow x |>.trans_le (Nat.pow_le_pow_right (by decide) (Nat.le_succ x)))

theorem toString2_zero : toString2 0 = ['0'] := rfl

theorem lpadLoop_zero (length fuel : Nat) (str : Str) :
    lpadLoop ['0'] length fuel str
      = List.replicate (min fuel (length - str.length)) '0' ++ str := by
  induction fuel generalizing str with
  | zero => simp [lpadLoop]
  | succ fuel ih =>
    simp only [lpadLoop]
    split
    · rename_i h
      rw [ih]
      simp only [List.singleton_append, List.length_cons]
      have : min (fuel + 1) (length - str.length)
          = min fuel (length - (str.length + 1)) + 1 := by omega
      rw [this, List.replicate_succ', List.append_assoc]
      rfl
    · rename_i h
      have : length - str.length = 0 := by omega
      simp [this]

theorem lpad_zero (str : Str) (length : Nat) :
    lpad str ['0'] length = List.replicate (length - str.length) '0' ++ str := by
  unfold lpad
  rw [lpadLoop_zero]
  simp

theorem lpad_isBin {str : Str} (length : Nat) (h : IsBin str) : IsBin (lpad str ['0'] length) := by
  rw [lpad_zero]
  exact isBin_append (isBin_replicate _) h

theorem binaryToByte_lpad (str : Str) (length : Nat) :
    binaryToByte (lpad str ['0'] length) = binaryToByte str := by
  rw [lpad_zero, binaryToByte_replicate_zero]

theorem lpad_length_ge (str : Str) (length : Nat) :
    length ≤ (lpad str ['0'] length).length := by
  rw [lpad_zero]
  simp
  omega

theorem lpad_length (str : Str) (length : Nat) (h : str.length ≤ length) :
    (lpad str ['0'] length).length = length := by
  rw [lpad_zero]
  simp
  omega

/-- Printing a number below `2 ^ w` in binary and padding to `w` characters gives exactly
`w` characters. -/
theorem lpad_toString2_length (x w : Nat) (hx : x < 2 ^ w) (hw : 1 ≤ w) :
    (lpad (toString2 x) ['0'] w).length = w :=
  lpad_length _ _ (toString2_length_le x w hx hw)

/-- Parsing a `w`-character bit string and printing it back padded to `w` is the identity. -/
theorem lpad_toString2_binaryToByte {c : Str} (hc : IsBin c) (hw : 1 ≤ c.length) :
    lpad (toString2 (binaryToByte c)) ['0'] c.length = c := by
  apply binaryToByte_inj (lpad_isBin _ (toString2_isBin _)) hc
  · exact lpad_toString2_length _ _ (binaryToByte_lt c) hw
  · rw [binaryToByte_lpad, binaryToByte_toString2]

/-! ## `join`, `split` and `match` -/

theorem join_nil_cons (w : Str) (ws : List Str) : join [] (w :: ws) = w ++ join [] ws := by
  cases ws with
  | nil => simp [join]
  | cons v vs => simp [join]

theorem join_sep_cons_cons (sep w v : Str) (vs : List Str) :
    join sep (w :: v :: vs) = w ++ sep ++ join sep (v :: vs) := rfl

theorem join_nil_length (n : Nat) (ws : List Str) (h : ∀ w ∈ ws, w.length = n) :
    (join [] ws).length = ws.length * n := by
  induction ws with
  | nil => simp [join]
  | cons w ws ih =>
    rw [join_nil_cons, List.length_append, ih (fun v hv => h v (List.mem_cons_of_mem _ hv)),
      h w (List.mem_cons_self _ _), List.length_cons]
    ring

theorem join_nil_length_ge (n : Nat) (ws : List Str) (h : ∀ w ∈ ws, n ≤ w.length) :
    ws.length * n ≤ (join [] ws).length := by
  induction ws with
  | nil => simp [join]
  | cons w ws ih =>
    rw [join_nil_cons, List.length_append, List.length_cons, Nat.add_mul]
    have h1 := ih (fun v hv => h v (List.mem_cons_of_mem _ hv))
    have h2 := h w (List.mem_cons_self _ _)
    omega

theorem join_nil_isBin (ws : List Str) (h : ∀ w ∈ ws, IsBin w) : IsBin (join [] ws) := by
  induction ws with
  | nil => exact isBin_nil
  | cons w ws ih =>
    rw [join_nil_cons]
    exact isBin_append (h w (List.mem_cons_self _ _))
      (ih (fun v hv => h v (List.mem_cons_of_mem _ hv)))

theorem isBin_of_mem_join (ws : List Str) (h : IsBin (join [] ws)) : ∀ w ∈ ws, IsBin w := by
  induction ws with
  | nil => intro w hw; cases hw
  | cons w ws ih =>
    rw [join_nil_cons] at h
    intro v hv
    rcases List.mem_cons.mp hv with hv | hv
    · subst hv
      exact fun c hc => h c (List.mem_append_left _ hc)
    · exact ih (fun c hc => h c (List.mem_append_right _ hc)) v hv

/-- Matching `(.{1,n})` repeatedly over a concatenation of `n`-character pieces returns
the pieces. -/
theorem matchLoop_join (n : Nat) (hn : 1 ≤ n) (ps : List Str) (h : ∀ p ∈ ps, p.length = n)
    (fuel : Nat) (hfuel : ps.length ≤ fuel) : matchLoop n fuel (join [] ps) = ps := by
  induction ps generalizing fuel with
  | nil => cases fuel <;> simp [join, matchLoop]
  | cons p ps ih =>
    have hp := h p (List.mem_cons_self _ _)
    cases fuel with
    | zero => simp at hfuel
    | succ fuel =>
      rw [join_nil_cons]
      simp only [matchLoop]
      have hne : p ++ join [] ps ≠ [] := by
        intro hnil
        have hp0 : p = [] := (List.append_eq_nil.mp hnil).1
        rw [hp0] at hp
        simp at hp
        omega
      simp only [List.length_cons] at hfuel
      rw [if_neg hne, List.take_left' hp, List.drop_left' hp,
        ih (fun v hv => h v (List.mem_cons_of_mem _ hv)) fuel (by omega)]

theorem regexMatch_join (n : Nat) (hn : 1 ≤ n) (ps : List Str) (h : ∀ p ∈ ps, p.length = n)
    (hne : ps ≠ []) : regexMatch n (join [] ps) = some ps := by
  unfold regexMatch
  have hlen := join_nil_length n ps h
  have hpos : 0 < ps.length := List.length_pos.mpr hne
  have hne' : join [] ps ≠ [] := by
    intro hnil
    rw [hnil] at hlen
    simp at hlen
    rcases hlen with h0 | h0
    · exact hne h0
    · omega
  rw [if_neg hne', matchLoop_join n hn ps h]
  rw [hlen]
  exact Nat.le_mul_of_pos_right _ hn

/-- The fuel of `regexMatch` is enough: the matches cover the whole string. -/
theorem matchLoop_covers (n : Nat) (hn : 1 ≤ n) (fuel : Nat) (s : Str)
    (hfuel : s.length ≤ fuel) : join [] (matchLoop n fuel s) = s := by
  induction fuel generalizing s with
  | zero =>
    have : s = [] := List.length_eq_zero.mp (by omega)
    subst this
    rfl
  | succ fuel ih =>
    simp only [matchLoop]
    split
    · rename_i h
      rw [h]
      rfl
    · rename_i h
      have hpos : 0 < s.length := List.length_pos.mpr h
      rw [join_nil_cons, ih (s.drop n) (by rw [List.length_drop]; omega),
        List.take_append_drop]

/-- A string of `m * n` characters is the concatenation of `m` pieces of `n` characters. -/
theorem exists_pieces (n m : Nat) (s : Str) (h : s.length = m * n) :
    ∃ ps : List Str, ps.length = m ∧ (∀ p ∈ ps, p.length = n) ∧ join [] ps = s := by
  induction m generalizing s with
  | zero =>
    refine ⟨[], rfl, ?_, ?_⟩
    · intro p hp; cases hp
    · simp at h
      simp [join, h]
  | succ m ih =>
    have hlen : (s.drop n).length = m * n := by
      rw [List.length_drop, h, Nat.succ_mul]
      omega
    obtain ⟨ps, h1, h2, h3⟩ := ih (s.drop n) hlen
    refine ⟨s.take n :: ps, by simp [h1], ?_, ?_⟩
    · intro p hp
      rcases List.mem_cons.mp hp with hp | hp
      · subst hp
        rw [List.length_take, h, Nat.succ_mul]
        omega
      · exact h2 p hp
    · rw [join_nil_cons, h3, List.take_append_drop]

theorem split_ne_nil (sep : Char) (s : Str) : split sep s ≠ [] := by
  induction s with
  | nil => simp [split]
  | cons c cs ih =>
    simp only [split]
    split
    · simp
    · split <;> simp

theorem split_length_pos (sep : Char) (s : Str) : 0 < (split sep s).length :=
  List.length_pos.mpr (split_ne_nil sep s)

theorem split_of_not_mem (sep : Char) (w : Str) (h : sep ∉ w) : split sep w = [w] := by
  induction w with
  | nil => rfl
  | cons c cs ih =>
    have hc : c ≠ sep := fun hc => h (hc ▸ List.mem_cons_self _ _)
    have hcs : sep ∉ cs := fun hm => h (List.mem_cons_of_mem _ hm)
    simp only [split, if_neg hc, ih hcs]

theorem split_append_sep (sep : Char) (w rest : Str) (h : sep ∉ w) :
    split sep (w ++ sep :: rest) = w :: split sep rest := by
  induction w with
  | nil => simp [split]
  | cons c cs ih =>
    have hc : c ≠ sep := fun hc => h (hc ▸ List.mem_cons_self _ _)
    have hcs : sep ∉ cs := fun hm => h (List.mem_cons_of_mem _ hm)
    rw [List.cons_append]
    simp only [split, if_neg hc]
    rw [ih hcs]

/-- Splitting a join of separator-free words returns the words. -/
theorem split_join (sep : Char) (ws : List Str) (hne : ws ≠ []) (h : ∀ w ∈ ws, sep ∉ w) :
    split sep (join [sep] ws) = ws := by
  induction ws with
  | nil => exact absurd rfl hne
  | cons w ws ih =>
    cases ws with
    | nil => exact split_of_not_mem sep w (h w (List.mem_cons_self _ _))
    | cons v vs =>
      rw [join_sep_cons_cons, List.append_assoc, List.singleton_append,
        split_append_sep sep w _ (h w (List.mem_cons_self _ _)),
        ih (by simp) (fun x hx => h x (List.mem_cons_of_mem _ hx))]

/-! ## `indexOf` -/

theorem indexOfFrom_range (word : Str) (ws : List Str) (i : Nat) :
    indexOfFrom word ws i = -1 ∨
      ((i : Int) ≤ indexOfFrom word ws i ∧ indexOfFrom word ws i < (i : Int) + ws.length) := by
  induction ws generalizing i with
  | nil => exact Or.inl rfl
  | cons w ws ih =>
    simp only [indexOfFrom]
    split
    · right
      simp only [List.length_cons]
      omega
    · rcases ih (i + 1) with h | h
      · exact Or.inl h
      · right
        simp only [List.length_cons]
        omega

theorem indexOfFrom_gt_iff (word : Str) (ws : List Str) (i : Nat) :
    indexOfFrom word ws i > -1 ↔ word ∈ ws := by
  induction ws generalizing i with
  | nil => simp [indexOfFrom]
  | cons w ws ih =>
    simp only [indexOfFrom]
    split
    · rename_i h
      subst h
      simp
      omega
    · rename_i h
      rw [ih (i + 1), List.mem_cons]
      constructor
      · exact Or.inr
      · rintro (h' | h')
        · exact absurd h'.symm h
        · exact h'

theorem indexOfFrom_getElem (ws : List Str) (hnd : ws.Nodup) (i j : Nat) (hj : j < ws.length) :
    indexOfFrom (ws[j]) ws i = ((i + j : Nat) : Int) := by
  induction ws generalizing i j with
  | nil => simp at hj
  | cons w ws ih =>
    rw [List.nodup_cons] at hnd
    cases j with
    | zero => simp [indexOfFrom]
    | succ j =>
      simp only [List.length_cons, Nat.add_lt_add_iff_right] at hj
      simp only [List.getElem_cons_succ, indexOfFrom]
      have hne : w ≠ ws[j] := fun h => hnd.1 (h ▸ List.getElem_mem hj)
      rw [if_neg hne, ih hnd.2 (i + 1) j hj]
      congr 1
      omega

theorem indexOf_gt_iff (wordlist : List Str) (word : Str) :
    indexOf wordlist word > -1 ↔ word ∈ wordlist :=
  indexOfFrom_gt_iff word wordlist 0

/-- A word of the list has an index between 0 and the length of the list. -/
theorem indexOf_of_mem {wordlist : List Str} {word : Str} (h : word ∈ wordlist) :
    ∃ i : Nat, indexOf wordlist word = (i : Int) ∧ i < wordlist.length := by
  have h1 := (indexOf_gt_iff wordlist word).mpr h
  rcases indexOfFrom_range word wordlist 0 with h2 | h2
  · unfold indexOf at h1
    omega
  · refine ⟨(indexOf wordlist word).toNat, ?_, ?_⟩
    · unfold indexOf at h1 ⊢
      omega
    · unfold indexOf
      omega

theorem indexOf_getElem {wordlist : List Str} (hnd : wordlist.Nodup) (i : Nat)
    (hi : i < wordlist.length) : indexOf wordlist (wordlist[i]) = (i : Int) := by
  unfold indexOf
  rw [indexOfFrom_getElem wordlist hnd 0 i hi]
  simp

theorem intToString2_natCast (n : Nat) : intToString2 (n : Int) = toString2 n := by
  unfold intToString2
  rw [if_neg (by omega)]
  simp

/-! ## Bytes and checksum -/

theorem bufferFrom_of_isBuffer {e : Bytes} (h : IsBuffer e) : bufferFrom e = e := by
  unfold bufferFrom
  induction e with
  | nil => rfl
  | cons x xs ih =>
    have hx : x < 256 := h x (List.mem_cons_self _ _)
    rw [List.map_cons, ih (fun y hy => h y (List.mem_cons_of_mem _ hy))]
    simp [Nat.mod_eq_of_lt hx]

theorem bufferFrom_isBuffer (arr : List Nat) : IsBuffer (bufferFrom arr) := by
  intro x hx
  unfold bufferFrom at hx
  obtain ⟨y, _, rfl⟩ := List.mem_map.mp hx
  exact Nat.mod_lt _ (by decide)

theorem byteStr_length (x : Nat) (hx : x < 256) : (lpad (toString2 x) ['0'] 8).length = 8 :=
  lpad_toString2_length x 8 hx (by decide)

theorem bytesToBinary_isBin (bytes : List Nat) : IsBin (bytesToBinary bytes) := by
  unfold bytesToBinary
  apply join_nil_isBin
  intro w hw
  obtain ⟨x, _, rfl⟩ := List.mem_map.mp hw
  exact lpad_isBin _ (toString2_isBin x)

theorem bytesToBinary_length {e : Bytes} (h : IsBuffer e) :
    (bytesToBinary e).length = e.length * 8 := by
  unfold bytesToBinary
  rw [join_nil_length 8, List.length_map]
  intro w hw
  obtain ⟨x, hx, rfl⟩ := List.mem_map.mp hw
  exact byteStr_length x (h x hx)

theorem bytesToBinary_length_ge (e : List Nat) : e.length * 8 ≤ (bytesToBinary e).length := by
  unfold bytesToBinary
  have := join_nil_length_ge 8 (e.map fun x => lpad (toString2 x) ['0'] 8) (by
    intro w hw
    obtain ⟨x, _, rfl⟩ := List.mem_map.mp hw
    exact lpad_length_ge _ _)
  simpa using this

/-- Cutting the bit string of a non-empty buffer into 8-character groups and parsing each
group gives the buffer back. -/
theorem regexMatch_bytesToBinary {e : Bytes} (h : IsBuffer e) (hne : e ≠ []) :
    (regexMatch 8 (bytesToBinary e)).map (List.map binaryToByte) = some e := by
  unfold bytesToBinary
  rw [regexMatch_join 8 (by decide)]
  · simp only [Option.map_some', List.map_map, Option.some.injEq]
    conv_rhs => rw [← List.map_id e]
    apply List.map_congr_left
    intro x _
    simp [binaryToByte_lpad, binaryToByte_toString2]
  · intro w hw
    obtain ⟨x, hx, rfl⟩ := List.mem_map.mp hw
    exact byteStr_length x (h x hx)
  · simpa using hne

theorem bytesToBinary_inj {a b : Bytes} (ha : IsBuffer a) (hb : IsBuffer b)
    (h : bytesToBinary a = bytesToBinary b) : a = b := by
  have hla := bytesToBinary_length ha
  have hlb := bytesToBinary_length hb
  by_cases ha0 : a = []
  · subst ha0
    rw [← h] at hlb
    simp [bytesToBinary, join] at hlb
    exact hlb.symm
  · by_cases hb0 : b = []
    · subst hb0
      rw [h] at hla
      simp [bytesToBinary, join] at hla
      exact absurd hla ha0
    · have h1 := regexMatch_bytesToBinary ha ha0
      have h2 := regexMatch_bytesToBinary hb hb0
      rw [h, h2] at h1
      exact (Option.some.inj h1).symm

theorem checksumBits_isBin (sha256 : Bytes → Bytes) (e : Bytes) :
    IsBin (checksumBits sha256 e) :=
  isBin_take _ (bytesToBinary_isBin _)

theorem checksumBits_length_le (sha256 : Bytes → Bytes) (hd : IsDigest sha256) (e : Bytes) :
    (checksumBits sha256 e).length ≤ 256 := by
  unfold checksumBits
  simp only [List.length_take]
  have := bytesToBinary_length (hd e).2
  rw [(hd e).1] at this
  omega

theorem checksumBits_length (sha256 : Bytes → Bytes) (hd : IsDigest sha256) (e : Bytes)
    (k : Nat) (hlen : e.length = 4 * k) (hk : k ≤ 256) :
    (checksumBits sha256 e).length = k := by
  unfold checksumBits
  simp only [List.length_take]
  have := bytesToBinary_length (hd e).2
  rw [(hd e).1] at this
  omega

/-! ## Encoding -/

theorem entropyToMnemonic_of_regexMatch (sha256 : Bytes → Bytes) (e : Bytes)
    (wordlist : List Str) (chunks : List Str)
    (h : regexMatch 11 (bytesToBinary e ++ checksumBits sha256 e) = some chunks) :
    entropyToMnemonic sha256 e wordlist
      = .ok (join [' '] (chunks.map fun c => wordAt wordlist (binaryToByte c))) := by
  simp only [entropyToMnemonic, h, wordAt]

/-- The 11-bit groups of the encoder: for a buffer of `4 * k` bytes (`1 ≤ k ≤ 256`) the
entropy bits followed by the checksum split exactly into `3 * k` groups of 11 bits. -/
theorem encode_chunks (sha256 : Bytes → Bytes) (hd : IsDigest sha256) (e : Bytes)
    (he : IsBuffer e) (k : Nat) (hlen : e.length = 4 * k) (hk1 : 1 ≤ k) (hk : k ≤ 256) :
    ∃ chunks : List Str,
      regexMatch 11 (bytesToBinary e ++ checksumBits sha256 e) = some chunks ∧
      chunks.length = 3 * k ∧ (∀ c ∈ chunks, c.length = 11) ∧ (∀ c ∈ chunks, IsBin c) ∧
      join [] chunks = bytesToBinary e ++ checksumBits sha256 e := by
  have hbits : (bytesToBinary e ++ checksumBits sha256 e).length = (3 * k) * 11 := by
    rw [List.length_append, bytesToBinary_length he, checksumBits_length sha256 hd e k hlen hk,
      hlen]
    ring
  obtain ⟨ps, h1, h2, h3⟩ := exists_pieces 11 (3 * k) _ hbits
  have hne : ps ≠ [] := by
    intro h0
    rw [h0] at h1
    simp at h1
    omega
  refine ⟨ps, ?_, h1, h2, ?_, h3⟩
  · rw [← h3]
    exact regexMatch_join 11 (by decide) ps h2 hne
  · apply isBin_of_mem_join
    rw [h3]
    exact isBin_append (bytesToBinary_isBin e) (checksumBits_isBin sha256 e)

theorem wordAt_mem {wordlist : List Str} {i : Nat} (hi : i < wordlist.length) :
    wordAt wordlist i = wordlist[i] ∧ wordAt wordlist i ∈ wordlist := by
  have : wordAt wordlist i = wordlist[i] := by
    unfold wordAt
    rw [List.getElem?_eq_getElem hi]
    rfl
  exact ⟨this, this ▸ List.getElem_mem hi⟩

theorem chunk_index_lt {c : Str} (hc : c.length = 11) : binaryToByte c < 2048 := by
  have := binaryToByte_lt c
  rw [hc] at this
  exact this

/-! ## Decoding -/

theorem wordBits_piece {wordlist : List Str} (hwl : wordlist.length ≤ 2048) {w : Str}
    (hw : w ∈ wordlist) :
    (lpad (intToString2 (indexOf wordlist w)) ['0'] 11).length = 11 ∧
      IsBin (lpad (intToString2 (indexOf wordlist w)) ['0'] 11) := by
  obtain ⟨i, hi, hlt⟩ := indexOf_of_mem hw
  rw [hi, intToString2_natCast]
  exact ⟨lpad_toString2_length i 11 (by norm_num; omega) (by decide),
    lpad_isBin _ (toString2_isBin i)⟩

theorem wordBits_length {wordlist words : List Str} (hwl : wordlist.length ≤ 2048)
    (hmem : ∀ w ∈ words, w ∈ wordlist) : (wordBits wordlist words).length = words.length * 11 := by
  unfold wordBits
  rw [join_nil_length 11, List.length_map]
  intro p hp
  obtain ⟨w, hw, rfl⟩ := List.mem_map.mp hp
  exact (wordBits_piece hwl (hmem w hw)).1

theorem wordBits_isBin {wordlist words : List Str} (hwl : wordlist.length ≤ 2048)
    (hmem : ∀ w ∈ words, w ∈ wordlist) : IsBin (wordBits wordlist words) := by
  unfold wordBits
  apply join_nil_isBin
  intro p hp
  obtain ⟨w, hw, rfl⟩ := List.mem_map.mp hp
  exact (wordBits_piece hwl (hmem w hw)).2

theorem all_belong {wordlist words : List Str} (hmem : ∀ w ∈ words, w ∈ wordlist) :
    (words.all fun word => decide (indexOf wordlist word > -1)) = true := by
  rw [List.all_eq_true]
  intro w hw
  exact decide_eq_true ((indexOf_gt_iff wordlist w).mpr (hmem w hw))

theorem not_all_belong {wordlist words : List Str} {w : Str} (hw : w ∈ words)
    (hnot : w ∉ wordlist) :
    (words.all fun word => decide (indexOf wordlist word > -1)) = false := by
  rw [List.all_eq_false]
  exact ⟨w, hw, by simpa using fun h => hnot ((indexOf_gt_iff wordlist w).mp h)⟩

/-- The decoder on a text whose words are `3 * k` members of a list of at most 2048 words:
the 33k-bit string of indices splits into 32k entropy bits, which are the bits of a
4k-byte buffer, and k checksum bits; the result is decided by the checksum comparison. -/
theorem mnemonicToEntropy_of_words (sha256 : Bytes → Bytes) (nfkd : Str → Str)
    (mnemonic : Option Str) (wordlist words : List Str) (k : Nat)
    (hsplit : split ' ' (normalize nfkd mnemonic) = words) (hcount : words.length = 3 * k)
    (hk : 1 ≤ k) (hmem : ∀ w ∈ words, w ∈ wordlist) (hwl : wordlist.length ≤ 2048) :
    ∃ ent : Bytes, ent.length = 4 * k ∧ IsBuffer ent ∧
      bytesToBinary ent = (wordBits wordlist words).take (32 * k) ∧
      mnemonicToEntropy sha256 nfkd mnemonic wordlist =
        if checksumBits sha256 ent = (wordBits wordlist words).drop (32 * k) then .ok ent
        else .error .invalidMnemonicChecksum := by
  have hbl : (wordBits wordlist words).length = 33 * k := by
    rw [wordBits_length hwl hmem, hcount]
    ring
  have hbin := wordBits_isBin hwl hmem
  have hdiv : (wordBits wordlist words).length / 33 * 32 = 32 * k := by
    rw [hbl]
    omega
  have hent_len : ((wordBits wordlist words).take (32 * k)).length = (4 * k) * 8 := by
    rw [List.length_take, hbl]
    omega
  obtain ⟨ps, h1, h2, h3⟩ := exists_pieces 8 (4 * k) _ hent_len
  have hps_ne : ps ≠ [] := by
    intro h0
    rw [h0] at h1
    simp at h1
    omega
  have hmatch : regexMatch 8 ((wordBits wordlist words).take (32 * k)) = some ps := by
    rw [← h3]
    exact regexMatch_join 8 (by decide) ps h2 hps_ne
  have hpsbin : ∀ p ∈ ps, IsBin p := isBin_of_mem_join ps (h3 ▸ isBin_take _ hbin)
  have hentbuf : IsBuffer (ps.map binaryToByte) := by
    intro x hx
    obtain ⟨p, hp, rfl⟩ := List.mem_map.mp hx
    have := binaryToByte_lt p
    rw [h2 p hp] at this
    exact this
  have hback : bytesToBinary (ps.map binaryToByte) = (wordBits wordlist words).take (32 * k) := by
    unfold bytesToBinary
    rw [List.map_map, ← h3]
    congr 1
    conv_rhs => rw [← List.map_id ps]
    apply List.map_congr_left
    intro p hp
    have := lpad_toString2_binaryToByte (hpsbin p hp) (by rw [h2 p hp]; decide)
    rw [h2 p hp] at this
    simpa using this
  refine ⟨ps.map binaryToByte, by simp [h1], hentbuf, hback, ?_⟩
  have hmod : words.length % 3 = 0 := by omega
  simp only [mnemonicToEntropy, hsplit, hmod, all_belong hmem, hdiv, hmatch,
    bufferFrom_of_isBuffer hentbuf]
  simp

/-! ## Round trip -/

theorem nfkd_join (nfkd : Str → Str) (hn : NfkdKeepsSpace nfkd) (ws : List Str)
    (hne : ws ≠ []) (h : ∀ w ∈ ws, nfkd w = w) : nfkd (join [' '] ws) = join [' '] ws := by
  induction ws with
  | nil => exact absurd rfl hne
  | cons w ws ih =>
    cases ws with
    | nil => exact h w (List.mem_cons_self _ _)
    | cons v vs =>
      rw [join_sep_cons_cons, List.append_assoc, List.singleton_append, hn,
        h w (List.mem_cons_self _ _), ih (by simp) (fun x hx => h x (List.mem_cons_of_mem _ hx))]

/-- The decoder's bit string for the words the encoder chose is the encoder's bit string. -/
theorem wordBits_encoded {wordlist : List Str} (hlen : wordlist.length = 2048)
    (hnd : wordlist.Nodup) (chunks : List Str) (h11 : ∀ c ∈ chunks, c.length = 11)
    (hbin : ∀ c ∈ chunks, IsBin c) :
    wordBits wordlist (chunks.map fun c => wordAt wordlist (binaryToByte c))
      = join [] chunks := by
  unfold wordBits
  rw [List.map_map]
  congr 1
  conv_rhs => rw [← List.map_id chunks]
  apply List.map_congr_left
  intro c hc
  have hi : binaryToByte c < wordlist.length := hlen ▸ chunk_index_lt (h11 c hc)
  have hpad := lpad_toString2_binaryToByte (hbin c hc) (by rw [h11 c hc]; decide)
  rw [h11 c hc] at hpad
  simp only [Function.comp_apply, id_eq]
  rw [(wordAt_mem hi).1, indexOf_getElem hnd _ hi, intToString2_natCast, hpad]

/-- Encoding a buffer of `4 * k` bytes, `1 ≤ k ≤ 256`, with a good word list succeeds, and
decoding the result gives the buffer back. -/
theorem encode_decode_le_256 (sha256 : Bytes → Bytes) (nfkd : Str → Str)
    (hd : IsDigest sha256) (hn : NfkdKeepsSpace nfkd) (wordlist : List Str)
    (hwl : GoodWordlist nfkd wordlist) (e : Bytes) (he : IsBuffer e) (k : Nat)
    (hlen : e.length = 4 * k) (hk1 : 1 ≤ k) (hk : k ≤ 256) :
    ∃ m : Str, entropyToMnemonic sha256 e wordlist = .ok m ∧
      (split ' ' m).length = 3 * k ∧
      mnemonicToEntropy sha256 nfkd (some m) wordlist = .ok e := by
  obtain ⟨chunks, hmatch, hcount, h11, hbin, hjoin⟩ :=
    encode_chunks sha256 hd e he k hlen hk1 hk
  have hwords_mem : ∀ w ∈ chunks.map (fun c => wordAt wordlist (binaryToByte c)),
      w ∈ wordlist := by
    intro w hw
    obtain ⟨c, hc, rfl⟩ := List.mem_map.mp hw
    exact (wordAt_mem (hwl.length_eq ▸ chunk_index_lt (h11 c hc))).2
  have hwords_ne : chunks.map (fun c => wordAt wordlist (binaryToByte c)) ≠ [] := by
    intro h0
    have := congrArg List.length h0
    simp at this
    rw [this] at hcount
    simp at hcount
    omega
  have hsplit : split ' ' (normalize nfkd (some (join [' ']
      (chunks.map fun c => wordAt wordlist (binaryToByte c)))))
      = chunks.map fun c => wordAt wordlist (binaryToByte c) := by
    simp only [normalize, Option.getD_some]
    rw [nfkd_join nfkd hn _ hwords_ne (fun w hw => hwl.stable w (hwords_mem w hw)),
      split_join ' ' _ hwords_ne (fun w hw => hwl.no_space w (hwords_mem w hw))]
  refine ⟨_, entropyToMnemonic_of_regexMatch sha256 e wordlist chunks hmatch, ?_, ?_⟩
  · rw [split_join ' ' _ hwords_ne (fun w hw => hwl.no_space w (hwords_mem w hw))]
    simpa using hcount
  · obtain ⟨ent, _, hentbuf, hback, hres⟩ :=
      mnemonicToEntropy_of_words sha256 nfkd _ wordlist _ k hsplit (by simpa using hcount) hk1
        hwords_mem (le_of_eq hwl.length_eq)
    have hbl : (bytesToBinary e).length = 32 * k := by
      rw [bytesToBinary_length he, hlen]
      ring
    rw [wordBits_encoded hwl.length_eq hwl.nodup chunks h11 hbin, hjoin] at hback hres
    rw [List.take_left' hbl] at hback
    rw [List.drop_left' hbl] at hres
    have hent : ent = e := bytesToBinary_inj hentbuf he hback
    rw [hres, hent, if_pos rfl]

/-! ## The sample word list and digest -/

theorem demoSha256_isDigest : IsDigest demoSha256 := by
  intro b
  refine ⟨by simp [demoSha256], ?_⟩
  intro x hx
  rw [demoSha256, List.mem_replicate] at hx
  rw [hx.2]
  exact Nat.mod_lt _ (by decide)

theorem id_keepsSpace : NfkdKeepsSpace id := fun _ _ => rfl

theorem decomposeEAcute_keepsSpace : NfkdKeepsSpace decomposeEAcute := by
  intro a b
  simp [decomposeEAcute]

theorem toString2_injective : Function.Injective toString2 := by
  intro a b h
  rw [← binaryToByte_toString2 a, ← binaryToByte_toString2 b, h]

theorem demoWordlist_good : GoodWordlist id demoWordlist where
  length_eq := by simp [demoWordlist]
  nodup := (List.nodup_range 2048).map toString2_injective
  no_space := by
    intro w hw hsp
    obtain ⟨i, _, rfl⟩ := List.mem_map.mp hw
    rcases toString2_isBin i ' ' hsp with h | h <;> exact absurd h (by decide)
  stable := fun _ _ => rfl

/-! ## Rejection -/

theorem mnemonicToEntropy_bad_count (sha256 : Bytes → Bytes) (nfkd : Str → Str)
    (mnemonic : Option Str) (wordlist : List Str)
    (hmod : (split ' ' (normalize nfkd mnemonic)).length % 3 ≠ 0) :
    mnemonicToEntropy sha256 nfkd mnemonic wordlist = .error .invalidMnemonic := by
  simp only [mnemonicToEntropy]
  rw [if_pos hmod]

theorem mnemonicToEntropy_unknown_word (sha256 : Bytes → Bytes) (nfkd : Str → Str)
    (mnemonic : Option Str) (wordlist : List Str) (w : Str)
    (hw : w ∈ split ' ' (normalize nfkd mnemonic)) (hnot : w ∉ wordlist) :
    mnemonicToEntropy sha256 nfkd mnemonic wordlist = .error .invalidMnemonic := by
  simp only [mnemonicToEntropy]
  split
  · rfl
  · rw [not_all_belong hw hnot]
    rfl

theorem validateMnemonic_of_error {sha256 : Bytes → Bytes} {nfkd : Str → Str}
    {mnemonic : Option Str} {wordlist : List Str} {err : JsError}
    (h : mnemonicToEntropy sha256 nfkd mnemonic wordlist = .error err) :
    validateMnemonic sha256 nfkd mnemonic wordlist = false := by
  simp only [validateMnemonic, h]

theorem validateMnemonic_of_ok {sha256 : Bytes → Bytes} {nfkd : Str → Str}
    {mnemonic : Option Str} {wordlist : List Str} {e : Bytes}
    (h : mnemonicToEntropy sha256 nfkd mnemonic wordlist = .ok e) :
    validateMnemonic sha256 nfkd mnemonic wordlist = true := by
  simp only [validateMnemonic, h]

/-- An accepted mnemonic has a word count divisible by 3 and only words of the list. -/
theorem words_of_valid {sha256 : Bytes → Bytes} {nfkd : Str → Str}
    {mnemonic : Option Str} {wordlist : List Str}
    (h : validateMnemonic sha256 nfkd mnemonic wordlist = true) :
    (split ' ' (normalize nfkd mnemonic)).length % 3 = 0 ∧
      ∀ w ∈ split ' ' (normalize nfkd mnemonic), w ∈ wordlist := by
  constructor
  · by_contra hmod
    rw [validateMnemonic_of_error
      (mnemonicToEntropy_bad_count sha256 nfkd mnemonic wordlist hmod)] at h
    exact Bool.false_ne_true h
  · intro w hw
    by_contra hnot
    rw [validateMnemonic_of_error
      (mnemonicToEntropy_unknown_word sha256 nfkd mnemonic wordlist w hw hnot)] at h
    exact Bool.false_ne_true h

/-! ## Claims -/

/-- C1. Round trip: with a word list of exactly 2048 pairwise distinct, space-free,
NFKD-stable words, for every buffer `e` whose length is a multiple of 4 between 4 and 32,
`entropyToMnemonic e wordlist` succeeds with a mnemonic `m`, and
`mnemonicToEntropy m wordlist` succeeds and returns exactly `e`. -/
theorem roundtrip (sha256 : Bytes → Bytes) (nfkd : Str → Str)
    (hd : IsDigest sha256) (hn : NfkdKeepsSpace nfkd) (wordlist : List Str)
    (hwl : GoodWordlist nfkd wordlist) (e : Bytes) (he : IsBuffer e)
    (h4 : e.length % 4 = 0) (hmin : 4 ≤ e.length) (hmax : e.length ≤ 32) :
    ∃ m : Str, entropyToMnemonic sha256 e wordlist = .ok m ∧
      mnemonicToEntropy sha256 nfkd (some m) wordlist = .ok e := by
  obtain ⟨m, h1, _, h2⟩ := encode_decode_le_256 sha256 nfkd hd hn wordlist hwl e he
    (e.length / 4) (by omega) (by omega) (by omega)
  exact ⟨m, h1, h2⟩

/-- C1, at the 16-byte buffer `7f7f...7f` with the sample word list and digest. -/
theorem roundtrip_witness :
    IsDigest demoSha256 ∧ NfkdKeepsSpace id ∧ GoodWordlist id demoWordlist ∧
      IsBuffer (List.replicate 16 0x7f) ∧ (List.replicate 16 0x7f).length % 4 = 0 ∧
      4 ≤ (List.replicate 16 0x7f).length ∧ (List.replicate 16 0x7f).length ≤ 32 ∧
      ∃ m : Str, entropyToMnemonic demoSha256 (List.replicate 16 0x7f) demoWordlist = .ok m ∧
        mnemonicToEntropy demoSha256 id (some m) demoWordlist = .ok (List.replicate 16 0x7f) :=
  ⟨demoSha256_isDigest, id_keepsSpace, demoWordlist_good, by unfold IsBuffer; decide,
    by decide, by decide, by decide,
    roundtrip demoSha256 id demoSha256_isDigest id_keepsSpace demoWordlist demoWordlist_good
      (List.replicate 16 0x7f) (by unfold IsBuffer; decide) (by decide) (by decide)
      (by decide)⟩

/-- C2. Word-count law: for every buffer `e` of `4 * k` bytes with `1 ≤ k ≤ 8`,
`entropyToMnemonic e` is the single-space join of exactly
`(len e * 8 + len e * 8 / 32) / 11 = 3 * k` words, each of them `wordlist[i]` for an index
`i < 2048` (a member of the list when the list has 2048 entries); the count is a multiple
of 3, and when no word of the list contains a space, splitting the mnemonic on spaces
gives exactly these `3 * k` words. -/
theorem word_count_law (sha256 : Bytes → Bytes) (hd : IsDigest sha256) (wordlist : List Str)
    (e : Bytes) (he : IsBuffer e) (k : Nat) (hlen : e.length = 4 * k) (hk1 : 1 ≤ k)
    (hk8 : k ≤ 8) :
    ∃ words : List Str,
      entropyToMnemonic sha256 e wordlist = .ok (join [' '] words) ∧
      words.length = (e.length * 8 + e.length * 8 / 32) / 11 ∧
      words.length = 3 * k ∧ 3 ∣ words.length ∧
      (∀ w ∈ words, ∃ i, i < 2048 ∧ w = wordAt wordlist i) ∧
      (wordlist.length = 2048 → ∀ w ∈ words, w ∈ wordlist) ∧
      ((∀ w ∈ wordlist, ' ' ∉ w) → split ' ' (join [' '] words) = words) := by
  obtain ⟨chunks, hmatch, hcount, h11, _, _⟩ :=
    encode_chunks sha256 hd e he k hlen hk1 (by omega)
  have hidx : ∀ w ∈ chunks.map (fun c => wordAt wordlist (binaryToByte c)),
      ∃ i, i < 2048 ∧ w = wordAt wordlist i := by
    intro w hw
    obtain ⟨c, hc, rfl⟩ := List.mem_map.mp hw
    exact ⟨binaryToByte c, chunk_index_lt (h11 c hc), rfl⟩
  have hcount' : (chunks.map fun c => wordAt wordlist (binaryToByte c)).length = 3 * k := by
    simpa using hcount
  refine ⟨_, entropyToMnemonic_of_regexMatch sha256 e wordlist chunks hmatch, ?_, hcount',
    ⟨k, hcount'⟩, hidx, ?_, ?_⟩
  · rw [hcount', hlen]
    omega
  · intro h2048 w hw
    obtain ⟨i, hi, rfl⟩ := hidx w hw
    exact (wordAt_mem (h2048 ▸ hi)).2
  · intro hsp
    apply split_join
    · intro h0
      rw [h0] at hcount'
      simp at hcount'
      omega
    · intro w hw
      obtain ⟨i, _, rfl⟩ := hidx w hw
      unfold wordAt
      cases hget : wordlist[i]? with
      | none => simp
      | some v =>
        simp only [Option.getD_some]
        exact hsp v (List.getElem?_mem hget)

/-- C2, at a 4-byte buffer (3 words) with the sample word list and digest. -/
theorem word_count_law_witness :
    IsDigest demoSha256 ∧ IsBuffer [0x13, 0x37, 0x55, 0xff] ∧
      ∃ words : List Str,
        entropyToMnemonic demoSha256 [0x13, 0x37, 0x55, 0xff] demoWordlist
          = .ok (join [' '] words) ∧
        words.length = ([0x13, 0x37, 0x55, 0xff].length * 8
          + [0x13, 0x37, 0x55, 0xff].length * 8 / 32) / 11 ∧
        words.length = 3 * 1 ∧ 3 ∣ words.length ∧
        (∀ w ∈ words, ∃ i, i < 2048 ∧ w = wordAt demoWordlist i) ∧
        (demoWordlist.length = 2048 → ∀ w ∈ words, w ∈ demoWordlist) ∧
        ((∀ w ∈ demoWordlist, ' ' ∉ w) → split ' ' (join [' '] words) = words) :=
  ⟨demoSha256_isDigest, by unfold IsBuffer; decide,
    word_count_law demoSha256 demoSha256_isDigest demoWordlist [0x13, 0x37, 0x55, 0xff]
      (by unfold IsBuffer; decide) 1 (by decide) (by decide) (by decide)⟩

/-- C3. Word-count rejection: for every word list and every mnemonic text (absent or
empty included) whose normalized form, split on single spaces, has a number of words that
is not a positive multiple of 3, `mnemonicToEntropy` throws (`Invalid mnemonic`) and
`validateMnemonic` returns `false`. -/
theorem word_count_rejection (sha256 : Bytes → Bytes) (nfkd : Str → Str)
    (mnemonic : Option Str) (wordlist : List Str)
    (h : ¬ (0 < (split ' ' (normalize nfkd mnemonic)).length ∧
      (split ' ' (normalize nfkd mnemonic)).length % 3 = 0)) :
    mnemonicToEntropy sha256 nfkd mnemonic wordlist = .error .invalidMnemonic ∧
      validateMnemonic sha256 nfkd mnemonic wordlist = false := by
  have hpos := split_length_pos ' ' (normalize nfkd mnemonic)
  have hmod : (split ' ' (normalize nfkd mnemonic)).length % 3 ≠ 0 := fun h0 => h ⟨hpos, h0⟩
  have herr := mnemonicToEntropy_bad_count sha256 nfkd mnemonic wordlist hmod
  exact ⟨herr, validateMnemonic_of_error herr⟩

/-- C3, at the two-word text `sleep kitten` and at the absent text. -/
theorem word_count_rejection_witness :
    (¬ (0 < (split ' ' (normalize id (some "sleep kitten".toList))).length ∧
      (split ' ' (normalize id (some "sleep kitten".toList))).length % 3 = 0)) ∧
    (mnemonicToEntropy demoSha256 id (some "sleep kitten".toList) demoWordlist
        = .error .invalidMnemonic ∧
      validateMnemonic demoSha256 id (some "sleep kitten".toList) demoWordlist = false) ∧
    (mnemonicToEntropy demoSha256 id none demoWordlist = .error .invalidMnemonic ∧
      validateMnemonic demoSha256 id none demoWordlist = false) :=
  ⟨by decide,
    word_count_rejection demoSha256 id (some "sleep kitten".toList) demoWordlist (by decide),
    word_count_rejection demoSha256 id none demoWordlist (by decide)⟩

/-- C4. Unknown-word rejection: for every word list and every mnemonic text, if one of the
words of the normalized text (split on single spaces) is not an element of the word list,
`mnemonicToEntropy` throws (`Invalid mnemonic`) and `validateMnemonic` returns `false`. -/
theorem unknown_word_rejection (sha256 : Bytes → Bytes) (nfkd : Str → Str)
    (mnemonic : Option Str) (wordlist : List Str) (w : Str)
    (hw : w ∈ split ' ' (normalize nfkd mnemonic)) (hnot : w ∉ wordlist) :
    mnemonicToEntropy sha256 nfkd mnemonic wordlist = .error .invalidMnemonic ∧
      validateMnemonic sha256 nfkd mnemonic wordlist = false := by
  have herr := mnemonicToEntropy_unknown_word sha256 nfkd mnemonic wordlist w hw hnot
  exact ⟨herr, validateMnemonic_of_error herr⟩

/-- C4, at a three-word text whose last word is not in a two-word list. -/
theorem unknown_word_rejection_witness :
    "turtle".toList ∈ split ' ' (normalize id (some "sleep kitten turtle".toList)) ∧
    "turtle".toList ∉ ["sleep".toList, "kitten".toList] ∧
    mnemonicToEntropy demoSha256 id (some "sleep kitten turtle".toList)
        ["sleep".toList, "kitten".toList] = .error .invalidMnemonic ∧
    validateMnemonic demoSha256 id (some "sleep kitten turtle".toList)
        ["sleep".toList, "kitten".toList] = false :=
  ⟨by decide, by decide,
    unknown_word_rejection demoSha256 id (some "sleep kitten turtle".toList)
      ["sleep".toList, "kitten".toList] "turtle".toList (by decide) (by decide)⟩

/-- C5. Checksum rejection: for a word list of 2048 entries and a mnemonic whose
normalized text splits into `3 * k` words (`k ≥ 1`), all in the list, the concatenated
11-bit indices form a string of `33 * k` bits; its first `32 * k` bits are the bits of a
buffer `ent` of `4 * k` bytes (the recovered entropy) and its last `k` bits are the
checksum segment. `mnemonicToEntropy` throws `Invalid mnemonic checksum` if and only if
`checksumBits ent` differs from the checksum segment, and returns `ent` when they are
equal. (Distinctness of the words is not needed.) -/
theorem checksum_rejection (sha256 : Bytes → Bytes) (nfkd : Str → Str)
    (mnemonic : Option Str) (wordlist : List Str) (k : Nat) (hwl : wordlist.length = 2048)
    (hcount : (split ' ' (normalize nfkd mnemonic)).length = 3 * k) (hk : 1 ≤ k)
    (hmem : ∀ w ∈ split ' ' (normalize nfkd mnemonic), w ∈ wordlist) :
    ∃ ent : Bytes, ent.length = 4 * k ∧ IsBuffer ent ∧
      (wordBits wordlist (split ' ' (normalize nfkd mnemonic))).length = 33 * k ∧
      bytesToBinary ent
        = (wordBits wordlist (split ' ' (normalize nfkd mnemonic))).take (32 * k) ∧
      (mnemonicToEntropy sha256 nfkd mnemonic wordlist = .error .invalidMnemonicChecksum ↔
        checksumBits sha256 ent
          ≠ (wordBits wordlist (split ' ' (normalize nfkd mnemonic))).drop (32 * k)) ∧
      (checksumBits sha256 ent
          = (wordBits wordlist (split ' ' (normalize nfkd mnemonic))).drop (32 * k) →
        mnemonicToEntropy sha256 nfkd mnemonic wordlist = .ok ent) := by
  obtain ⟨ent, h1, h2, h3, h4⟩ := mnemonicToEntropy_of_words sha256 nfkd mnemonic wordlist _ k
    rfl hcount hk hmem (le_of_eq hwl)
  refine ⟨ent, h1, h2, ?_, h3, ?_, ?_⟩
  · rw [wordBits_length (le_of_eq hwl) hmem, hcount]
    ring
  · rw [h4]
    split <;> simp_all
  · intro heq
    rw [h4, if_pos heq]

/-- C5, at a three-word text over the sample word list. -/
theorem checksum_rejection_witness :
    demoWordlist.length = 2048 ∧
    (split ' ' (normalize id (some "10011001 10111010101 1111111110".toList))).length = 3 * 1 ∧
    (∀ w ∈ split ' ' (normalize id (some "10011001 10111010101 1111111110".toList)),
      w ∈ demoWordlist) ∧
    ∃ ent : Bytes, ent.length = 4 * 1 ∧ IsBuffer ent ∧
      (wordBits demoWordlist
        (split ' ' (normalize id (some "10011001 10111010101 1111111110".toList)))).length
          = 33 * 1 ∧
      bytesToBinary ent = (wordBits demoWordlist
        (split ' ' (normalize id (some "10011001 10111010101 1111111110".toList)))).take
          (32 * 1) ∧
      (mnemonicToEntropy demoSha256 id (some "10011001 10111010101 1111111110".toList)
          demoWordlist = .error .invalidMnemonicChecksum ↔
        checksumBits demoSha256 ent ≠ (wordBits demoWordlist
          (split ' ' (normalize id (some "10011001 10111010101 1111111110".toList)))).drop
            (32 * 1)) ∧
      (checksumBits demoSha256 ent = (wordBits demoWordlist
          (split ' ' (normalize id (some "10011001 10111010101 1111111110".toList)))).drop
            (32 * 1) →
        mnemonicToEntropy demoSha256 id (some "10011001 10111010101 1111111110".toList)
          demoWordlist = .ok ent) := by
  have hmem : ∀ w ∈ split ' ' (normalize id (some "10011001 10111010101 1111111110".toList)),
      w ∈ demoWordlist := by decide!
  exact ⟨demoWordlist_good.length_eq, by decide, hmem,
    checksum_rejection demoSha256 id (some "10011001 10111010101 1111111110".toList)
      demoWordlist 1 demoWordlist_good.length_eq (by decide) (by decide) hmem⟩

/-- C6. `validateMnemonic` is a total boolean wrapper over decoding: it returns `true`
exactly when `mnemonicToEntropy` returns a buffer, and `false` exactly when
`mnemonicToEntropy` throws, whatever the error (word count, unknown word, checksum, or
any other); being a boolean-valued function it raises nothing itself. -/
theorem validate_iff_decodes (sha256 : Bytes → Bytes) (nfkd : Str → Str)
    (mnemonic : Option Str) (wordlist : List Str) :
    (validateMnemonic sha256 nfkd mnemonic wordlist = true ↔
      ∃ e, mnemonicToEntropy sha256 nfkd mnemonic wordlist = .ok e) ∧
    (validateMnemonic sha256 nfkd mnemonic wordlist = false ↔
      ∃ err, mnemonicToEntropy sha256 nfkd mnemonic wordlist = .error err) ∧
    (mnemonicToEntropy sha256 nfkd mnemonic wordlist = .error .invalidMnemonic →
      validateMnemonic sha256 nfkd mnemonic wordlist = false) ∧
    (mnemonicToEntropy sha256 nfkd mnemonic wordlist = .error .invalidMnemonicChecksum →
      validateMnemonic sha256 nfkd mnemonic wordlist = false) := by
  refine ⟨?_, ?_, validateMnemonic_of_error, validateMnemonic_of_error⟩
  · unfold validateMnemonic
    cases mnemonicToEntropy sha256 nfkd mnemonic wordlist <;> simp
  · unfold validateMnemonic
    cases mnemonicToEntropy sha256 nfkd mnemonic wordlist <;> simp

/-- C7. Checksum sensitivity: let the word list have 2048 entries and let `m` be a
mnemonic of `3 * k` words accepted by `validateMnemonic`. If the concatenated 11-bit index
string of `m` is `pre ++ c :: post` with the bit `c` inside the checksum segment
(`32 * k ≤ pre.length`), and `m'` is a text whose index string is `pre ++ c' :: post` with
`c' ≠ c` (one checksum bit flipped, every other bit unchanged), then `validateMnemonic`
returns `false` on `m'`. -/
theorem checksum_sensitivity (sha256 : Bytes → Bytes) (nfkd : Str → Str)
    (wordlist : List Str) (m m' : Option Str) (k : Nat) (pre post : Str) (c c' : Char)
    (hwl : wordlist.length = 2048)
    (hcount : (split ' ' (normalize nfkd m)).length = 3 * k)
    (hvalid : validateMnemonic sha256 nfkd m wordlist = true)
    (hbits : wordBits wordlist (split ' ' (normalize nfkd m)) = pre ++ c :: post)
    (hbits' : wordBits wordlist (split ' ' (normalize nfkd m')) = pre ++ c' :: post)
    (hpos : 32 * k ≤ pre.length) (hflip : c' ≠ c) :
    validateMnemonic sha256 nfkd m' wordlist = false := by
  have hle : wordlist.length ≤ 2048 := le_of_eq hwl
  obtain ⟨_, hmem⟩ := words_of_valid hvalid
  have hk : 1 ≤ k := by
    have := split_length_pos ' ' (normalize nfkd m)
    omega
  obtain ⟨ent, _, hbuf, hback, hres⟩ := mnemonicToEntropy_of_words sha256 nfkd m wordlist _ k
    rfl hcount hk hmem hle
  have hsum : checksumBits sha256 ent
      = (wordBits wordlist (split ' ' (normalize nfkd m))).drop (32 * k) := by
    by_contra hne
    rw [if_neg hne] at hres
    rw [validateMnemonic_of_error hres] at hvalid
    exact Bool.false_ne_true hvalid
  by_cases hmod' : (split ' ' (normalize nfkd m')).length % 3 = 0
  swap
  · exact validateMnemonic_of_error (mnemonicToEntropy_bad_count sha256 nfkd m' wordlist hmod')
  by_cases hmem' : ∀ w ∈ split ' ' (normalize nfkd m'), w ∈ wordlist
  swap
  · push_neg at hmem'
    obtain ⟨w, hw, hnot⟩ := hmem'
    exact validateMnemonic_of_error
      (mnemonicToEntropy_unknown_word sha256 nfkd m' wordlist w hw hnot)
  have hlen := wordBits_length hle hmem
  have hlen' := wordBits_length hle hmem'
  rw [hbits] at hlen
  rw [hbits'] at hlen'
  simp only [List.length_append, List.length_cons] at hlen hlen'
  have hcount' : (split ' ' (normalize nfkd m')).length = 3 * k := by omega
  obtain ⟨ent', _, hbuf', hback', hres'⟩ := mnemonicToEntropy_of_words sha256 nfkd m' wordlist _ k
    rfl hcount' hk hmem' hle
  rw [hbits, List.take_append_of_le_length hpos] at hback
  rw [hbits', List.take_append_of_le_length hpos] at hback'
  have hent : ent' = ent := bytesToBinary_inj hbuf' hbuf (hback'.trans hback.symm)
  rw [hbits, List.drop_append_of_le_length hpos] at hsum
  rw [hbits', List.drop_append_of_le_length hpos, hent, hsum] at hres'
  have hne : ¬ (pre.drop (32 * k) ++ c :: post = pre.drop (32 * k) ++ c' :: post) := by
    intro h
    have := List.append_cancel_left h
    simp at this
    exact hflip this.symm
  rw [if_neg hne] at hres'
  exact validateMnemonic_of_error hres'

/-- C7, at the accepted three-word mnemonic `1 10 10` of the sample word list: its index
string ends in the checksum bit `0`; replacing the last word by `11` flips that bit. -/
theorem checksum_sensitivity_witness :
    demoWordlist.length = 2048 ∧
    (split ' ' (normalize id (some "1 10 10".toList))).length = 3 * 1 ∧
    validateMnemonic demoSha256 id (some "1 10 10".toList) demoWordlist = true ∧
    wordBits demoWordlist (split ' ' (normalize id (some "1 10 10".toList)))
      = "00000000001000000000100000000001".toList ++ '0' :: [] ∧
    wordBits demoWordlist (split ' ' (normalize id (some "1 10 11".toList)))
      = "00000000001000000000100000000001".toList ++ '1' :: [] ∧
    32 * 1 ≤ "00000000001000000000100000000001".toList.length ∧ '1' ≠ '0' ∧
    validateMnemonic demoSha256 id (some "1 10 11".toList) demoWordlist = false := by
  have hvalid : validateMnemonic demoSha256 id (some "1 10 10".toList) demoWordlist = true := by
    decide!
  have hbits : wordBits demoWordlist (split ' ' (normalize id (some "1 10 10".toList)))
      = "00000000001000000000100000000001".toList ++ '0' :: [] := by decide!
  have hbits' : wordBits demoWordlist (split ' ' (normalize id (some "1 10 11".toList)))
      = "00000000001000000000100000000001".toList ++ '1' :: [] := by decide!
  exact ⟨demoWordlist_good.length_eq, by decide, hvalid, hbits, hbits', by decide, by decide,
    checksum_sensitivity demoSha256 id demoWordlist (some "1 10 10".toList)
      (some "1 10 11".toList) 1 "00000000001000000000100000000001".toList [] '0' '1'
      demoWordlist_good.length_eq (by decide) hvalid hbits hbits' (by decide) (by decide)⟩

/-! ## Generation -/

theorem checksumBits_nil (sha256 : Bytes → Bytes) : checksumBits sha256 [] = [] := by
  simp [checksumBits]

/-- Encoding succeeds on every non-empty buffer and throws a `TypeError` on the empty one. -/
theorem entropyToMnemonic_ok_iff (sha256 : Bytes → Bytes) (e : Bytes) (wordlist : List Str) :
    ((∃ m, entropyToMnemonic sha256 e wordlist = .ok m) ↔ e ≠ []) ∧
      (entropyToMnemonic sha256 e wordlist = .error .typeError ↔ e = []) := by
  by_cases he : e = []
  · subst he
    have : entropyToMnemonic sha256 [] wordlist = .error .typeError := by
      simp [entropyToMnemonic, checksumBits_nil, bytesToBinary, join, regexMatch]
    simp [this]
  · have hne : bytesToBinary e ++ checksumBits sha256 e ≠ [] := by
      intro h
      have h1 : (bytesToBinary e).length = 0 := by
        rw [(List.append_eq_nil.mp h).1]
        rfl
      have h2 := bytesToBinary_length_ge e
      have h3 : 0 < e.length := List.length_pos.mpr he
      omega
    have : ∃ m, entropyToMnemonic sha256 e wordlist = .ok m := by
      simp only [entropyToMnemonic, regexMatch, if_neg hne]
      exact ⟨_, rfl⟩
    obtain ⟨m, hm⟩ := this
    simp [hm, he]

theorem strength_quotient (n : Nat) : (((8 * n : Nat) : Int) : ℚ) / 8 = (n : ℚ) := by
  push_cast
  field_simp

theorem default_quotient : (((none : Option Int).getD 128 : Int) : ℚ) / 8 = 16 := by
  simp
  norm_num

/-- C8. Generation delegates to encoding: `generateMnemonic strength rng wordlist` is
`entropyToMnemonic` applied to `Buffer.from(rng(strength / 8))`, which is
`rng(strength / 8)` itself when the source returns bytes; an absent strength is 128, so the
source is asked for 16 bytes, and 16 bytes give 12 words; two sources that return the same
bytes for `strength / 8` give the same mnemonic. -/
theorem generate_delegates (sha256 : Bytes → Bytes) (strength : Option Int)
    (rng rng' : ℚ → List Nat) (wordlist : List Str) :
    generateMnemonic sha256 strength rng wordlist
      = entropyToMnemonic sha256
          (bufferFrom (rng (((strength.getD 128 : Int) : ℚ) / 8))) wordlist ∧
    (IsBuffer (rng (((strength.getD 128 : Int) : ℚ) / 8)) →
      generateMnemonic sha256 strength rng wordlist
        = entropyToMnemonic sha256 (rng (((strength.getD 128 : Int) : ℚ) / 8)) wordlist) ∧
    generateMnemonic sha256 none rng wordlist
      = entropyToMnemonic sha256 (bufferFrom (rng 16)) wordlist ∧
    (IsDigest sha256 → (rng 16).length = 16 →
      ∃ words : List Str, words.length = 12 ∧
        generateMnemonic sha256 none rng wordlist = .ok (join [' '] words)) ∧
    (rng' (((strength.getD 128 : Int) : ℚ) / 8) = rng (((strength.getD 128 : Int) : ℚ) / 8) →
      generateMnemonic sha256 strength rng' wordlist
        = generateMnemonic sha256 strength rng wordlist) := by
  refine ⟨rfl, ?_, ?_, ?_, ?_⟩
  · intro hbuf
    simp only [generateMnemonic, bufferFrom_of_isBuffer hbuf]
  · simp only [generateMnemonic, default_quotient]
  · intro hd hlen
    obtain ⟨chunks, hmatch, hcount, _, _, _⟩ := encode_chunks sha256 hd (bufferFrom (rng 16))
      (bufferFrom_isBuffer _) 4 (by simp [bufferFrom, hlen]) (by decide) (by decide)
    refine ⟨chunks.map fun c => wordAt wordlist (binaryToByte c), by simpa using hcount, ?_⟩
    simp only [generateMnemonic, default_quotient]
    exact entropyToMnemonic_of_regexMatch sha256 _ wordlist chunks hmatch
  · intro hsame
    simp only [generateMnemonic, hsame]

/-- C9 as stated fails. With the sample digest and word list (2048 distinct space-free
words), a source returning the single byte `01` for `strength = 8` gives the one-word
mnemonic `1`, which `validateMnemonic` rejects; and with a word list whose words are not
in normal form (here U+00E9 decomposes), the mnemonic of the 4-byte buffer `00 00 00 00`
is rejected as well. -/
theorem generate_any_length_counterexample :
    (IsDigest demoSha256 ∧ GoodWordlist id demoWordlist ∧
      ((fun _ => [1] : ℚ → List Nat) 1).length = 1 ∧
      generateMnemonic demoSha256 (some 8) (fun _ => [1]) demoWordlist = .ok "1".toList ∧
      validateMnemonic demoSha256 id (some "1".toList) demoWordlist = false) ∧
    (NfkdKeepsSpace decomposeEAcute ∧ accentWordlist.length = 2048 ∧ accentWordlist.Nodup ∧
      (∀ w ∈ accentWordlist, ' ' ∉ w) ∧
      ((fun _ => [0, 0, 0, 0] : ℚ → List Nat) 4).length = 4 ∧
      generateMnemonic demoSha256 (some 32) (fun _ => [0, 0, 0, 0]) accentWordlist
        = .ok "é0 é0 é0".toList ∧
      validateMnemonic demoSha256 decomposeEAcute (some "é0 é0 é0".toList) accentWordlist
        = false) := by
  refine ⟨⟨demoSha256_isDigest, demoWordlist_good, rfl, by decide!, by decide!⟩,
    decomposeEAcute_keepsSpace, by simp [accentWordlist], ?_, ?_, rfl, by decide!, by decide!⟩
  · exact (List.nodup_range 2048).map fun a b h => toString2_injective (List.cons.inj h).2
  · intro w hw hsp
    obtain ⟨i, _, rfl⟩ := List.mem_map.mp hw
    rcases List.mem_cons.mp hsp with h | h
    · exact absurd h (by decide)
    · rcases toString2_isBin i ' ' h with h' | h' <;> exact absurd h' (by decide)

/-- C9, amended. For every byte length `n = 4 * k` with `1 ≤ k ≤ 256`, every source that
returns `n` bytes when asked for `n`, and every word list of 2048 distinct, space-free,
NFKD-stable words, `generateMnemonic (8 * n) rng wordlist` returns a mnemonic that
`validateMnemonic` accepts with the same word list. -/
theorem generate_valid_multiple_of_four (sha256 : Bytes → Bytes) (nfkd : Str → Str)
    (hd : IsDigest sha256) (hn : NfkdKeepsSpace nfkd) (wordlist : List Str)
    (hwl : GoodWordlist nfkd wordlist) (rng : ℚ → List Nat) (k : Nat) (hk1 : 1 ≤ k)
    (hk : k ≤ 256) (hr : (rng ((4 * k : Nat) : ℚ)).length = 4 * k) :
    ∃ m : Str,
      generateMnemonic sha256 (some ((8 * (4 * k) : Nat) : Int)) rng wordlist = .ok m ∧
      validateMnemonic sha256 nfkd (some m) wordlist = true := by
  obtain ⟨m, h1, _, h2⟩ := encode_decode_le_256 sha256 nfkd hd hn wordlist hwl
    (bufferFrom (rng ((4 * k : Nat) : ℚ))) (bufferFrom_isBuffer _) k
    (by rw [bufferFrom, List.length_map, hr]) hk1 hk
  refine ⟨m, ?_, validateMnemonic_of_ok h2⟩
  simp only [generateMnemonic, Option.getD_some, strength_quotient]
  exact h1

/-- C9 amended, at `k = 1` with a source returning `13 37 55 ff`. -/
theorem generate_valid_multiple_of_four_witness :
    IsDigest demoSha256 ∧ NfkdKeepsSpace id ∧ GoodWordlist id demoWordlist ∧
      ((fun _ => [0x13, 0x37, 0x55, 0xff] : ℚ → List Nat) ((4 * 1 : Nat) : ℚ)).length = 4 * 1 ∧
      ∃ m : Str,
        generateMnemonic demoSha256 (some ((8 * (4 * 1) : Nat) : Int))
          (fun _ => [0x13, 0x37, 0x55, 0xff]) demoWordlist = .ok m ∧
        validateMnemonic demoSha256 id (some m) demoWordlist = true :=
  ⟨demoSha256_isDigest, id_keepsSpace, demoWordlist_good, rfl,
    generate_valid_multiple_of_four demoSha256 id demoSha256_isDigest id_keepsSpace
      demoWordlist demoWordlist_good (fun _ => [0x13, 0x37, 0x55, 0xff]) 1 (by decide)
      (by decide) rfl⟩

/-- C10 as stated fails: `src/index.js` has no strength check. With `strength = 12` (not a
multiple of 8), `strength = 0` and `strength = -8`, a source returning `00 00 00 00`
makes `generateMnemonic` return the mnemonic `0 0 0`; and when the source returns no
bytes the error is the `TypeError` of the encoder, not a strength error. -/
theorem generate_strength_counterexample :
    generateMnemonic demoSha256 (some 12) (fun _ => [0, 0, 0, 0]) demoWordlist
      = .ok "0 0 0".toList ∧
    generateMnemonic demoSha256 (some 0) (fun _ => [0, 0, 0, 0]) demoWordlist
      = .ok "0 0 0".toList ∧
    generateMnemonic demoSha256 (some (-8)) (fun _ => [0, 0, 0, 0]) demoWordlist
      = .ok "0 0 0".toList ∧
    generateMnemonic demoSha256 (some 0) (fun _ => []) demoWordlist = .error .typeError := by
  refine ⟨by decide!, by decide!, by decide!, by decide!⟩

/-- C10, amended. `generateMnemonic` does not validate `strength`: for every strength
(non-positive and non-byte-aligned ones included) it returns a mnemonic exactly when the
source returns at least one byte for `strength / 8`, and throws a `TypeError` exactly when
the source returns no byte. -/
theorem generate_no_strength_check (sha256 : Bytes → Bytes) (strength : Option Int)
    (rng : ℚ → List Nat) (wordlist : List Str) :
    ((∃ m, generateMnemonic sha256 strength rng wordlist = .ok m) ↔
      rng (((strength.getD 128 : Int) : ℚ) / 8) ≠ []) ∧
    (generateMnemonic sha256 strength rng wordlist = .error .typeError ↔
      rng (((strength.getD 128 : Int) : ℚ) / 8) = []) := by
  have h := entropyToMnemonic_ok_iff sha256
    (bufferFrom (rng (((strength.getD 128 : Int) : ℚ) / 8))) wordlist
  have hnil : bufferFrom (rng (((strength.getD 128 : Int) : ℚ) / 8)) = [] ↔
      rng (((strength.getD 128 : Int) : ℚ) / 8) = [] := by
    simp [bufferFrom]
  exact ⟨h.1.trans (not_congr hnil), h.2.trans hnil⟩

/-! ## Bit-level reading of the strings -/

theorem bitsMsb_length (w n : Nat) : (bitsMsb w n).length = w := by
  induction w generalizing n with
  | zero => rfl
  | succ w ih => simp [bitsMsb, ih]

theorem bitsMsb_isBin (w n : Nat) : IsBin (bitsMsb w n) := by
  induction w generalizing n with
  | zero => exact isBin_nil
  | succ w ih =>
    simp only [bitsMsb]
    apply isBin_append (ih _)
    apply isBin_cons _ isBin_nil
    split <;> simp

theorem binaryToByte_bitsMsb (w n : Nat) : binaryToByte (bitsMsb w n) = n % 2 ^ w := by
  induction w generalizing n with
  | zero => simp [bitsMsb, binaryToByte, Nat.mod_one]
  | succ w ih =>
    simp only [bitsMsb]
    rw [binaryToByte_append, ih, binaryToByte_cons, binaryToByte_nil]
    simp only [List.length_singleton, List.length_nil, pow_zero, pow_one, mul_one, add_zero]
    have h1 : n % 2 ^ (w + 1) = 2 * (n / 2 % 2 ^ w) + n % 2 := by
      rw [pow_succ, Nat.mul_comm (2 ^ w) 2, Nat.mod_mul]
      omega
    rw [h1]
    have hmod : n % 2 = 0 ∨ n % 2 = 1 := by omega
    rcases hmod with h | h <;> simp [h] <;> omega

/-- Printing in binary and padding with zeros to `w` characters gives the `w`-bit
big-endian representation. -/
theorem lpad_toString2_eq_bitsMsb (x w : Nat) (hx : x < 2 ^ w) (hw : 1 ≤ w) :
    lpad (toString2 x) ['0'] w = bitsMsb w x := by
  apply binaryToByte_inj (lpad_isBin _ (toString2_isBin _)) (bitsMsb_isBin w x)
  · rw [lpad_toString2_length x w hx hw, bitsMsb_length]
  · rw [binaryToByte_lpad, binaryToByte_toString2, binaryToByte_bitsMsb, Nat.mod_eq_of_lt hx]

theorem foldl_beNat_init (bytes : Bytes) (a : Nat) :
    bytes.foldl (fun acc x => acc * 256 + x) a = a * 256 ^ bytes.length + beNat bytes := by
  induction bytes generalizing a with
  | nil => simp [beNat]
  | cons x xs ih =>
    simp only [beNat, List.foldl_cons, List.length_cons]
    rw [ih, ih (0 * 256 + x)]
    ring

theorem beNat_cons (x : Nat) (xs : Bytes) :
    beNat (x :: xs) = x * 256 ^ xs.length + beNat xs := by
  simp only [beNat, List.foldl_cons]
  rw [foldl_beNat_init]
  simp [beNat]

/-- The bit string of a buffer, read as a binary numeral, is the buffer read as a
big-endian integer. -/
theorem binaryToByte_bytesToBinary {e : Bytes} (he : IsBuffer e) :
    binaryToByte (bytesToBinary e) = beNat e := by
  induction e with
  | nil => rfl
  | cons x xs ih =>
    have hx : x < 256 := he x (List.mem_cons_self _ _)
    have hxs : IsBuffer xs := fun y hy => he y (List.mem_cons_of_mem _ hy)
    have hcons : bytesToBinary (x :: xs) = lpad (toString2 x) ['0'] 8 ++ bytesToBinary xs := by
      simp only [bytesToBinary, List.map_cons, join_nil_cons]
    rw [hcons, binaryToByte_append, binaryToByte_lpad, binaryToByte_toString2, ih hxs,
      bytesToBinary_length hxs, beNat_cons]
    congr 1
    rw [Nat.mul_comm xs.length 8, pow_mul]
    norm_num

theorem bytesToBinary_eq_bitsMsb {e : Bytes} (he : IsBuffer e) :
    bytesToBinary e = join [] (e.map (bitsMsb 8)) := by
  unfold bytesToBinary
  congr 1
  apply List.map_congr_left
  intro x hx
  exact lpad_toString2_eq_bitsMsb x 8 (he x hx) (by decide)

/-- The leading `k` characters of a bit string are its value shifted right. -/
theorem binaryToByte_take (s : Str) (k : Nat) :
    binaryToByte (s.take k) = binaryToByte s / 2 ^ (s.length - k) := by
  have h := binaryToByte_append (s.take k) (s.drop k)
  rw [List.take_append_drop, List.length_drop] at h
  have hlt := binaryToByte_lt (s.drop k)
  rw [List.length_drop] at hlt
  rw [h, Nat.mul_comm, Nat.mul_add_div (Nat.pos_pow_of_pos _ (by decide)),
    Nat.div_eq_of_lt hlt, Nat.add_zero]

/-- The value of the `i`-th of `m` groups of `w` bits is `N / 2 ^ (w * (m - 1 - i)) mod 2 ^ w`
for the value `N` of the whole string. -/
theorem binaryToByte_chunk (w : Nat) (chunks : List Str) (hw : ∀ c ∈ chunks, c.length = w)
    (i : Nat) (hi : i < chunks.length) :
    binaryToByte (chunks[i])
      = binaryToByte (join [] chunks) / 2 ^ (w * (chunks.length - 1 - i)) % 2 ^ w := by
  induction chunks generalizing i with
  | nil => simp at hi
  | cons c cs ih =>
    have hc : c.length = w := hw c (List.mem_cons_self _ _)
    have hcs : ∀ d ∈ cs, d.length = w := fun d hd => hw d (List.mem_cons_of_mem _ hd)
    have hlen : (join [] cs).length = cs.length * w := join_nil_length w cs hcs
    have hlt := binaryToByte_lt (join [] cs)
    have hclt := binaryToByte_lt c
    rw [hlen] at hlt
    rw [hc] at hclt
    rw [join_nil_cons, binaryToByte_append, hlen]
    cases i with
    | zero =>
      simp only [List.getElem_cons_zero, List.length_cons, Nat.add_sub_cancel, Nat.sub_zero]
      rw [Nat.mul_comm w cs.length, Nat.mul_comm (binaryToByte c),
        Nat.mul_add_div (Nat.pos_pow_of_pos _ (by decide)), Nat.div_eq_of_lt hlt,
        Nat.add_zero, Nat.mod_eq_of_lt hclt]
    | succ j =>
      simp only [List.length_cons, Nat.add_lt_add_iff_right] at hi
      simp only [List.getElem_cons_succ, List.length_cons, Nat.add_sub_cancel]
      rw [ih hcs j hi]
      have hexp : cs.length - (j + 1) = cs.length - 1 - j := by omega
      have hm : cs.length = (cs.length - 1 - j) + (j + 1) := by omega
      have hpow : 2 ^ (cs.length * w)
          = 2 ^ (w * (cs.length - 1 - j)) * (2 ^ w * 2 ^ (w * j)) := by
        rw [← pow_add, ← pow_add]
        congr 1
        generalize cs.length - 1 - j = t at hm
        rw [hm]
        ring
      have hsum : binaryToByte c * (2 ^ (w * (cs.length - 1 - j)) * (2 ^ w * 2 ^ (w * j)))
            + binaryToByte (join [] cs)
          = 2 ^ (w * (cs.length - 1 - j)) * (2 ^ w * (binaryToByte c * 2 ^ (w * j)))
            + binaryToByte (join [] cs) := by ring
      rw [hexp, hpow, hsum, Nat.mul_add_div (Nat.pos_pow_of_pos _ (by decide)),
        Nat.mul_add_mod]

/-- The encoder's bit string, read as a binary numeral, is the number `N` of the
reference definition. -/
theorem binaryToByte_encoder_bits (sha256 : Bytes → Bytes) (hd : IsDigest sha256) (e : Bytes)
    (he : IsBuffer e) (k : Nat) (hlen : e.length = 4 * k) (hk : k ≤ 256) :
    binaryToByte (bytesToBinary e ++ checksumBits sha256 e) = encodeNumber sha256 e k := by
  have hcs : (checksumBits sha256 e).length = k := checksumBits_length sha256 hd e k hlen hk
  have hCS : e.length * 8 / 32 = k := by omega
  have hhash : (bytesToBinary (sha256 e)).length = 256 := by
    rw [bytesToBinary_length (hd e).2, (hd e).1]
  rw [binaryToByte_append, hcs, binaryToByte_bytesToBinary he, encodeNumber]
  congr 1
  simp only [checksumBits]
  rw [hCS, binaryToByte_take, hhash, binaryToByte_bytesToBinary (hd e).2]

/-- C11. Encoding equals its bit-level reference definition: for every buffer `e` of
`4 * k` bytes (`1 ≤ k ≤ 8`) and every word list of 2048 entries, `entropyToMnemonic e` is
the single-space join of the `3 * k` words `wordlist[v i]`, where
`v i = N / 2 ^ (11 * (3 * k - 1 - i)) mod 2048` and `N` is `e` read as a big-endian integer
times `2 ^ k` plus the leading `k` bits of the digest of `e`. The bit string has exactly
`11 * (3 * k)` characters, its value is `N`, and every `v i` is an index of the list. -/
theorem encode_eq_reference (sha256 : Bytes → Bytes) (hd : IsDigest sha256) (e : Bytes)
    (he : IsBuffer e) (wordlist : List Str) (hwl : wordlist.length = 2048) (k : Nat)
    (hlen : e.length = 4 * k) (hk1 : 1 ≤ k) (hk8 : k ≤ 8) :
    entropyToMnemonic sha256 e wordlist = .ok (encodeRef sha256 e wordlist k) ∧
    (bytesToBinary e ++ checksumBits sha256 e).length = 11 * (3 * k) ∧
    binaryToByte (bytesToBinary e ++ checksumBits sha256 e) = encodeNumber sha256 e k ∧
    encodeNumber sha256 e k < 2 ^ (11 * (3 * k)) ∧
    ∀ i, i < 3 * k →
      encodeNumber sha256 e k / 2 ^ (11 * (3 * k - 1 - i)) % 2048 < wordlist.length ∧
      wordAt wordlist (encodeNumber sha256 e k / 2 ^ (11 * (3 * k - 1 - i)) % 2048)
        ∈ wordlist := by
  obtain ⟨chunks, hmatch, hcount, h11, _, hjoin⟩ :=
    encode_chunks sha256 hd e he k hlen hk1 (by omega)
  have hN := binaryToByte_encoder_bits sha256 hd e he k hlen (by omega)
  have hbl : (bytesToBinary e ++ checksumBits sha256 e).length = 11 * (3 * k) := by
    rw [← hjoin, join_nil_length 11 chunks h11, hcount]
    ring
  have hidx : ∀ i, encodeNumber sha256 e k / 2 ^ (11 * (3 * k - 1 - i)) % 2048
      < wordlist.length := by
    intro i
    rw [hwl]
    exact Nat.mod_lt _ (by decide)
  refine ⟨?_, hbl, hN, ?_, fun i _ => ⟨hidx i, (wordAt_mem (hidx i)).2⟩⟩
  · rw [entropyToMnemonic_of_regexMatch sha256 e wordlist chunks hmatch, encodeRef]
    congr 2
    apply List.ext_getElem
    · simp [hcount]
    · intro i h1 h2
      simp only [List.getElem_map, List.getElem_range]
      have hi : i < chunks.length := by simpa using h1
      rw [binaryToByte_chunk 11 chunks h11 i hi, hjoin, hN, hcount]
      norm_num
  · rw [← hN, ← hbl]
    exact binaryToByte_lt _

/-- C11, at the 16-byte buffer `7f7f...7f` with the sample word list and digest. -/
theorem encode_eq_reference_witness :
    IsDigest demoSha256 ∧ IsBuffer (List.replicate 16 0x7f) ∧ demoWordlist.length = 2048 ∧
    (List.replicate 16 0x7f).length = 4 * 4 ∧
    entropyToMnemonic demoSha256 (List.replicate 16 0x7f) demoWordlist
      = .ok (encodeRef demoSha256 (List.replicate 16 0x7f) demoWordlist 4) :=
  ⟨demoSha256_isDigest, by unfold IsBuffer; decide, demoWordlist_good.length_eq, by decide,
    (encode_eq_reference demoSha256 demoSha256_isDigest (List.replicate 16 0x7f)
      (by unfold IsBuffer; decide) demoWordlist demoWordlist_good.length_eq 4 (by decide)
      (by decide) (by decide)).1⟩

/-! ## Order of the checks -/

/-- The decoder is the instrumented decoder with each stopping place replaced by the error
raised there. -/
theorem mnemonicToEntropy_eq_at (sha256 : Bytes → Bytes) (nfkd : Str → Str)
    (mnemonic : Option Str) (wordlist : List Str) :
    mnemonicToEntropy sha256 nfkd mnemonic wordlist
      = match mnemonicToEntropyAt sha256 nfkd mnemonic wordlist with
        | .ok e => .ok e
        | .error site => .error site.raised := by
  simp only [mnemonicToEntropy, mnemonicToEntropyAt]
  split
  · rfl
  · split
    · rfl
    · split
      · rfl
      · split <;> rfl

/-- C12. Error precedence: `mnemonicToEntropy` stops at the first failing check in the
order word count, membership, checksum. A word count that is not a multiple of 3 stops at
the word-count `throw`, whatever the words and the checksum are; a valid word count with a
word outside the list stops at the membership `throw`, before any checksum is computed;
the checksum `throw` is reached only when both earlier checks pass. The errors raised are
`Invalid mnemonic` at the first two places and `Invalid mnemonic checksum` at the third. -/
theorem error_precedence (sha256 : Bytes → Bytes) (nfkd : Str → Str)
    (mnemonic : Option Str) (wordlist : List Str) :
    ((split ' ' (normalize nfkd mnemonic)).length % 3 ≠ 0 →
      mnemonicToEntropyAt sha256 nfkd mnemonic wordlist = .error .wordCount ∧
      mnemonicToEntropy sha256 nfkd mnemonic wordlist = .error .invalidMnemonic) ∧
    ((split ' ' (normalize nfkd mnemonic)).length % 3 = 0 →
      (∃ w ∈ split ' ' (normalize nfkd mnemonic), w ∉ wordlist) →
      mnemonicToEntropyAt sha256 nfkd mnemonic wordlist = .error .membership ∧
      mnemonicToEntropy sha256 nfkd mnemonic wordlist = .error .invalidMnemonic) ∧
    (mnemonicToEntropyAt sha256 nfkd mnemonic wordlist = .error .checksum ↔
      mnemonicToEntropy sha256 nfkd mnemonic wordlist = .error .invalidMnemonicChecksum) ∧
    (mnemonicToEntropy sha256 nfkd mnemonic wordlist = .error .invalidMnemonicChecksum →
      (split ' ' (normalize nfkd mnemonic)).length % 3 = 0 ∧
      ∀ w ∈ split ' ' (normalize nfkd mnemonic), w ∈ wordlist) := by
  refine ⟨?_, ?_, ?_, ?_⟩
  · intro hmod
    refine ⟨?_, mnemonicToEntropy_bad_count sha256 nfkd mnemonic wordlist hmod⟩
    simp only [mnemonicToEntropyAt]
    rw [if_pos hmod]
  · rintro hmod ⟨w, hw, hnot⟩
    refine ⟨?_, mnemonicToEntropy_unknown_word sha256 nfkd mnemonic wordlist w hw hnot⟩
    simp only [mnemonicToEntropyAt]
    rw [if_neg (by simpa using hmod), not_all_belong hw hnot]
    rfl
  · rw [mnemonicToEntropy_eq_at]
    cases h : mnemonicToEntropyAt sha256 nfkd mnemonic wordlist with
    | ok e => simp
    | error site => cases site <;> simp [ThrowSite.raised]
  · intro h
    constructor
    · by_contra hmod
      rw [mnemonicToEntropy_bad_count sha256 nfkd mnemonic wordlist hmod] at h
      exact absurd h (by decide)
    · intro w hw
      by_contra hnot
      rw [mnemonicToEntropy_unknown_word sha256 nfkd mnemonic wordlist w hw hnot] at h
      exact absurd h (by decide)

/-- C12 on three texts over a two-word list: a two-word text with an unknown word stops at
the word count, a three-word text with an unknown word stops at the membership test, and a
three-word text of known words stops at the checksum. -/
theorem error_precedence_examples :
    mnemonicToEntropyAt demoSha256 id (some "sleep turtle".toList)
      ["sleep".toList, "kitten".toList] = .error .wordCount ∧
    mnemonicToEntropyAt demoSha256 id (some "sleep kitten turtle".toList)
      ["sleep".toList, "kitten".toList] = .error .membership ∧
    mnemonicToEntropyAt demoSha256 id (some "kitten kitten kitten".toList)
      ["sleep".toList, "kitten".toList] = .error .checksum := by
  refine ⟨by decide!, by decide!, by decide!⟩

/-! ## Seed derivation -/

theorem toHex_length (buffer : Bytes) : (toHex buffer).length = 2 * buffer.length := by
  induction buffer with
  | nil => rfl
  | cons x xs ih =>
    have : toHex (x :: xs) = [hexDigit (x / 16 % 16), hexDigit (x % 16)] ++ toHex xs := by
      simp [toHex]
    rw [this, List.length_append, ih]
    simp
    omega

/-- C13. Normalization equivalence of seed derivation: whatever the key-derivation
function, two mnemonic texts with the same normal form and two passphrases with the same
normal form give the same seed and the same hexadecimal seed; in particular one mnemonic
with two passphrases that are different encodings of the same text. -/
theorem seed_normalization {ε : Type}
    (pbkdf2 : Bytes → Bytes → Nat → Nat → Str → Except ε Bytes) (nfkd : Str → Str)
    (m1 m2 p1 p2 : Option Str) (hm : normalize nfkd m1 = normalize nfkd m2)
    (hp : normalize nfkd p1 = normalize nfkd p2) :
    mnemonicToSeed pbkdf2 nfkd m1 p1 = mnemonicToSeed pbkdf2 nfkd m2 p2 ∧
      mnemonicToSeedHex pbkdf2 nfkd m1 p1 = mnemonicToSeedHex pbkdf2 nfkd m2 p2 := by
  have h : mnemonicToSeed pbkdf2 nfkd m1 p1 = mnemonicToSeed pbkdf2 nfkd m2 p2 := by
    simp only [mnemonicToSeed, hm, hp]
  exact ⟨h, by simp only [mnemonicToSeedHex, h]⟩

/-- C13, at one mnemonic and the passphrases U+00E9 and `e` followed by U+0301, which the
sample normalizer maps to the same text. -/
theorem seed_normalization_witness :
    normalize decomposeEAcute (some "1 10 10".toList)
      = normalize decomposeEAcute (some "1 10 10".toList) ∧
    normalize decomposeEAcute (some ['é']) = normalize decomposeEAcute (some ['e', '\u0301']) ∧
    (some ['é'] : Option Str) ≠ some ['e', '\u0301'] ∧
    mnemonicToSeed demoPbkdf2 decomposeEAcute (some "1 10 10".toList) (some ['é'])
      = mnemonicToSeed demoPbkdf2 decomposeEAcute (some "1 10 10".toList)
          (some ['e', '\u0301']) ∧
    mnemonicToSeedHex demoPbkdf2 decomposeEAcute (some "1 10 10".toList) (some ['é'])
      = mnemonicToSeedHex demoPbkdf2 decomposeEAcute (some "1 10 10".toList)
          (some ['e', '\u0301']) :=
  ⟨rfl, by decide, by decide,
    seed_normalization demoPbkdf2 decomposeEAcute (some "1 10 10".toList)
      (some "1 10 10".toList) (some ['é']) (some ['e', '\u0301']) rfl (by decide)⟩

/-- C14. Seed derivation inputs: `mnemonicToSeed m p` is the key derivation with 2048
iterations, key length 64 and digest `sha512` applied to the UTF-8 bytes of the normalized
mnemonic and the UTF-8 bytes of `"mnemonic"` followed by the normalized passphrase; an
absent passphrase gives the same seed as the empty one; `mnemonicToSeedHex` is the
hexadecimal rendering of the same bytes, two characters per byte, so 64 bytes and 128
characters when the key derivation returns as many bytes as it is asked for. -/
theorem seed_inputs {ε : Type}
    (pbkdf2 : Bytes → Bytes → Nat → Nat → Str → Except ε Bytes) (nfkd : Str → Str)
    (mnemonic : Option Str) (m p : Str) :
    mnemonicToSeed pbkdf2 nfkd (some m) (some p) = seedRef pbkdf2 nfkd m p ∧
    mnemonicToSeed pbkdf2 nfkd mnemonic none = mnemonicToSeed pbkdf2 nfkd mnemonic (some []) ∧
    mnemonicToSeedHex pbkdf2 nfkd mnemonic none
      = mnemonicToSeedHex pbkdf2 nfkd mnemonic (some []) ∧
    mnemonicToSeedHex pbkdf2 nfkd (some m) (some p) = (seedRef pbkdf2 nfkd m p).map toHex ∧
    (∀ seed, mnemonicToSeed pbkdf2 nfkd (some m) (some p) = .ok seed →
      mnemonicToSeedHex pbkdf2 nfkd (some m) (some p) = .ok (toHex seed) ∧
      (toHex seed).length = 2 * seed.length) ∧
    ((∀ key s n len d out, pbkdf2 key s n len d = .ok out → out.length = len) →
      ∀ seed, mnemonicToSeed pbkdf2 nfkd (some m) (some p) = .ok seed →
        seed.length = 64 ∧ (toHex seed).length = 128) := by
  refine ⟨rfl, rfl, rfl, rfl, ?_, ?_⟩
  · intro seed h
    exact ⟨by simp only [mnemonicToSeedHex, h]; rfl, toHex_length seed⟩
  · intro hlen seed h
    have h64 : seed.length = 64 := hlen _ _ _ _ _ _ h
    exact ⟨h64, by rw [toHex_length, h64]⟩

/-- C14 on the sample key-derivation function: the seed of `basket actual` without
passphrase has 64 bytes and its hexadecimal form starts with `6a`. -/
theorem seed_inputs_example :
    (mnemonicToSeed demoPbkdf2 id (some "basket actual".toList) none).map List.length
      = .ok 64 ∧
    (mnemonicToSeedHex demoPbkdf2 id (some "basket actual".toList) none).map (List.take 2)
      = .ok "6a".toList ∧
    utf8 ['é'] = [0xc3, 0xa9] ∧ utf8 "メ".toList = [0xe3, 0x83, 0xa1] := by
  refine ⟨by decide!, by decide!, by decide!, by decide!⟩

/-! ## Checksum and decode split -/

theorem digestBits_length {hash : Bytes} (h : hash.length = 32) :
    (digestBits hash).length = 256 := by
  unfold digestBits
  rw [join_nil_length 8, List.length_map, h]
  intro w hw
  obtain ⟨x, _, rfl⟩ := List.mem_map.mp hw
  exact bitsMsb_length 8 x

/-- C15. Checksum computation: for every entropy of standard length (16, 20, 24, 28 or 32
bytes), `checksumBits entropy` is a string over `'0'` and `'1'` of length exactly
`entropy_bit_length / 32` (between 4 and 8), equal to the leading bits of the 256-character
binary string of the digest, each digest byte zero-padded to 8 bits, most significant bit
first. -/
theorem checksum_bits_spec (sha256 : Bytes → Bytes) (hd : IsDigest sha256) (e : Bytes)
    (hstd : e.length = 16 ∨ e.length = 20 ∨ e.length = 24 ∨ e.length = 28 ∨ e.length = 32) :
    IsBin (checksumBits sha256 e) ∧
    (checksumBits sha256 e).length = e.length * 8 / 32 ∧
    4 ≤ (checksumBits sha256 e).length ∧ (checksumBits sha256 e).length ≤ 8 ∧
    (digestBits (sha256 e)).length = 256 ∧
    checksumBits sha256 e = (digestBits (sha256 e)).take (e.length * 8 / 32) := by
  have hlen : (checksumBits sha256 e).length = e.length * 8 / 32 := by
    rw [checksumBits_length sha256 hd e (e.length / 4) (by omega) (by omega)]
    omega
  refine ⟨checksumBits_isBin sha256 e, hlen, by omega, by omega,
    digestBits_length (hd (e)).1, ?_⟩
  simp only [checksumBits, digestBits]
  rw [bytesToBinary_eq_bitsMsb (hd e).2]

/-- C15, at a 16-byte buffer with the sample digest. -/
theorem checksum_bits_spec_witness :
    IsDigest demoSha256 ∧
    ((List.replicate 16 0x7f).length = 16 ∨ (List.replicate 16 0x7f).length = 20 ∨
      (List.replicate 16 0x7f).length = 24 ∨ (List.replicate 16 0x7f).length = 28 ∨
      (List.replicate 16 0x7f).length = 32) ∧
    checksumBits demoSha256 (List.replicate 16 0x7f)
      = (digestBits (demoSha256 (List.replicate 16 0x7f))).take
          ((List.replicate 16 0x7f).length * 8 / 32) :=
  ⟨demoSha256_isDigest, by decide,
    (checksum_bits_spec demoSha256 demoSha256_isDigest (List.replicate 16 0x7f)
      (by decide)).2.2.2.2.2⟩

/-- The decoder's bit string is the concatenation of the 11-bit indices of the words. -/
theorem wordBits_eq_indexBits {wordlist words : List Str} (hwl : wordlist.length ≤ 2048)
    (hmem : ∀ w ∈ words, w ∈ wordlist) : wordBits wordlist words = indexBits wordlist words := by
  unfold wordBits indexBits
  congr 1
  apply List.map_congr_left
  intro w hw
  obtain ⟨i, hi, hlt⟩ := indexOf_of_mem (hmem w hw)
  rw [hi, intToString2_natCast, Int.toNat_ofNat]
  exact lpad_toString2_eq_bitsMsb i 11 (by norm_num; omega) (by decide)

/-- C16. Decode split: for a word list of at most 2048 entries, whenever
`mnemonicToEntropy` returns a buffer on a mnemonic of `n` words, `n = 3 * k` with `k ≥ 1`,
the buffer has exactly `4 * k` bytes, and its bits, each byte zero-padded to 8 bits, are
the first `11 * n / 33 * 32 = 32 * k` bits of the concatenation of the words' 11-bit
zero-padded indices; the remaining `k` bits are the checksum segment, equal to
`checksumBits` of the buffer. -/
theorem decode_split (sha256 : Bytes → Bytes) (nfkd : Str → Str) (mnemonic : Option Str)
    (wordlist : List Str) (ent : Bytes) (hwl : wordlist.length ≤ 2048)
    (hok : mnemonicToEntropy sha256 nfkd mnemonic wordlist = .ok ent) :
    ∃ k : Nat, 1 ≤ k ∧ (split ' ' (normalize nfkd mnemonic)).length = 3 * k ∧
      ent.length = 4 * k ∧ IsBuffer ent ∧
      (indexBits wordlist (split ' ' (normalize nfkd mnemonic))).length
        = 11 * (split ' ' (normalize nfkd mnemonic)).length ∧
      11 * (split ' ' (normalize nfkd mnemonic)).length / 33 * 32 = 32 * k ∧
      join [] (ent.map (bitsMsb 8))
        = (indexBits wordlist (split ' ' (normalize nfkd mnemonic))).take (32 * k) ∧
      ((indexBits wordlist (split ' ' (normalize nfkd mnemonic))).drop (32 * k)).length = k ∧
      (indexBits wordlist (split ' ' (normalize nfkd mnemonic))).drop (32 * k)
        = checksumBits sha256 ent := by
  obtain ⟨hmod, hmem⟩ := words_of_valid (validateMnemonic_of_ok hok)
  have hpos := split_length_pos ' ' (normalize nfkd mnemonic)
  have hcount : (split ' ' (normalize nfkd mnemonic)).length
      = 3 * ((split ' ' (normalize nfkd mnemonic)).length / 3) := by omega
  obtain ⟨ent', h1, h2, h3, h4⟩ := mnemonicToEntropy_of_words sha256 nfkd mnemonic wordlist _
    ((split ' ' (normalize nfkd mnemonic)).length / 3) rfl hcount (by omega) hmem hwl
  rw [hok] at h4
  have hbl := wordBits_length hwl hmem
  rw [wordBits_eq_indexBits hwl hmem] at h3 h4 hbl
  by_cases hcs : checksumBits sha256 ent' = (indexBits wordlist
      (split ' ' (normalize nfkd mnemonic))).drop
        (32 * ((split ' ' (normalize nfkd mnemonic)).length / 3))
  · rw [if_pos hcs] at h4
    have hent : ent = ent' := by
      injection h4
    subst hent
    refine ⟨_, by omega, hcount, h1, h2, by rw [hbl]; ring, by omega, ?_, ?_, hcs.symm⟩
    · rw [← bytesToBinary_eq_bitsMsb h2, h3]
    · rw [List.length_drop, hbl]
      omega
  · rw [if_neg hcs] at h4
    exact absurd h4 (by simp)

/-- C16, at the accepted mnemonic `1 10 10` of the sample word list, which decodes to the
buffer `00 20 08 01`. -/
theorem decode_split_witness :
    demoWordlist.length ≤ 2048 ∧
    mnemonicToEntropy demoSha256 id (some "1 10 10".toList) demoWordlist = .ok [0, 32, 8, 1] ∧
    ∃ k : Nat, 1 ≤ k ∧ (split ' ' (normalize id (some "1 10 10".toList))).length = 3 * k ∧
      [0, 32, 8, 1].length = 4 * k ∧ IsBuffer [0, 32, 8, 1] ∧
      (indexBits demoWordlist (split ' ' (normalize id (some "1 10 10".toList)))).length
        = 11 * (split ' ' (normalize id (some "1 10 10".toList))).length ∧
      11 * (split ' ' (normalize id (some "1 10 10".toList))).length / 33 * 32 = 32 * k ∧
      join [] ([0, 32, 8, 1].map (bitsMsb 8))
        = (indexBits demoWordlist (split ' ' (normalize id (some "1 10 10".toList)))).take
            (32 * k) ∧
      ((indexBits demoWordlist (split ' ' (normalize id (some "1 10 10".toList)))).drop
        (32 * k)).length = k ∧
      (indexBits demoWordlist (split ' ' (normalize id (some "1 10 10".toList)))).drop (32 * k)
        = checksumBits demoSha256 [0, 32, 8, 1] := by
  have hok : mnemonicToEntropy demoSha256 id (some "1 10 10".toList) demoWordlist
      = .ok [0, 32, 8, 1] := by decide!
  exact ⟨le_of_eq demoWordlist_good.length_eq, hok,
    decode_split demoSha256 id (some "1 10 10".toList) demoWordlist [0, 32, 8, 1]
      (le_of_eq demoWordlist_good.length_eq) hok⟩

/-! ## The SHA-256 digest -/

theorem sha256Round_length (s : List Nat) (kw : Nat × Nat) (h : s.length = 8) :
    (sha256Round s kw).length = 8 := by
  match s, h with
  | [a, b, c, d, e, f, g, h'], _ => rfl

theorem foldl_sha256Round_length (kws : List (Nat × Nat)) (s : List Nat) (h : s.length = 8) :
    (kws.foldl sha256Round s).length = 8 := by
  induction kws generalizing s with
  | nil => exact h
  | cons kw kws ih => exact ih _ (sha256Round_length s kw h)

theorem sha256Block_length (hs : List Nat) (block : Bytes) (h : hs.length = 8) :
    (sha256Block hs block).length = 8 := by
  simp only [sha256Block, List.length_zipWith, h, foldl_sha256Round_length _ hs h]
  rfl

theorem sha256Blocks_length (n : Nat) (hs : List Nat) (bytes : Bytes) (h : hs.length = 8) :
    (sha256Blocks n hs bytes).length = 8 := by
  induction n generalizing hs bytes with
  | zero => exact h
  | succ n ih => exact ih _ _ (sha256Block_length hs _ h)

theorem flatMap_bytes_length (hs : List Nat) :
    (hs.flatMap fun w => [w / 2 ^ 24 % 256, w / 2 ^ 16 % 256, w / 2 ^ 8 % 256,
      w % 256]).length = 4 * hs.length := by
  induction hs with
  | nil => rfl
  | cons w ws ih =>
    rw [List.flatMap_cons, List.length_append, ih]
    simp
    omega

/-- The SHA-256 digest has 32 bytes. -/
theorem fipsSha256_isDigest : IsDigest fipsSha256 := by
  intro b
  constructor
  · simp only [fipsSha256]
    rw [flatMap_bytes_length, sha256Blocks_length _ sha256H0 _ (by decide)]
  · intro x hx
    simp only [fipsSha256, List.mem_flatMap] at hx
    obtain ⟨w, _, hw⟩ := hx
    simp only [List.mem_cons, List.mem_singleton, List.not_mem_nil, or_false] at hw
    rcases hw with h | h | h | h <;> rw [h] <;> exact Nat.mod_lt _ (by decide)

/-- The SHA-256 digests of the empty message and of `abc` (FIPS 180-4 test vectors), first
four bytes, and of the four-byte message `13 37 55 ff`, first byte. -/
theorem fipsSha256_vectors :
    (fipsSha256 []).take 4 = [0xe3, 0xb0, 0xc4, 0x42] ∧
    (fipsSha256 [0x61, 0x62, 0x63]).take 4 = [0xba, 0x78, 0x16, 0xbf] ∧
    (fipsSha256 [0x13, 0x37, 0x55, 0xff]).take 1 = [0x16] := by
  refine ⟨by decide!, by decide!, by decide!⟩

/-! ## Canonical form -/

theorem join_cons_cons (sep : Str) (c : Char) (w : Str) (ws : List Str) :
    join sep ((c :: w) :: ws) = c :: join sep (w :: ws) := by
  cases ws with
  | nil => rfl
  | cons v vs => simp [join]

/-- Joining the pieces of a split with the separator gives the text back. -/
theorem join_split (sep : Char) (t : Str) : join [sep] (split sep t) = t := by
  induction t with
  | nil => rfl
  | cons c cs ih =>
    simp only [split]
    split
    · rename_i h
      obtain ⟨w, ws, hw⟩ := List.exists_cons_of_ne_nil (split_ne_nil sep cs)
      rw [hw] at ih ⊢
      rw [join_sep_cons_cons, ih, h]
      rfl
    · split
      · rename_i h
        exact absurd h (split_ne_nil sep cs)
      · rename_i w ws h
        rw [join_cons_cons, ← h, ih]

/-- Splitting around one separator: the pieces of the left part, then those of the right. -/
theorem split_append (sep : Char) (a b : Str) :
    split sep (a ++ sep :: b) = split sep a ++ split sep b := by
  induction a with
  | nil => simp [split]
  | cons c cs ih =>
    rw [List.cons_append]
    simp only [split]
    split
    · rw [ih]
      rfl
    · rw [ih]
      obtain ⟨w, ws, hw⟩ := List.exists_cons_of_ne_nil (split_ne_nil sep cs)
      rw [hw]
      rfl

/-- A text with a leading, trailing or doubled separator has an empty piece. -/
theorem nil_mem_split (sep : Char) (t : Str)
    (h : t.head? = some sep ∨ t.getLast? = some sep ∨ [sep, sep] <:+: t) :
    [] ∈ split sep t := by
  rcases h with h | h | h
  · cases t with
    | nil => simp at h
    | cons c cs =>
      simp only [List.head?_cons, Option.some.injEq] at h
      simp [split, h]
  · obtain ⟨a, rfl⟩ := List.getLast?_eq_some_iff.mp h
    rw [split_append]
    simp [split]
  · obtain ⟨a, b, rfl⟩ := h
    have : a ++ [sep, sep] ++ b = a ++ sep :: (sep :: b) := by simp
    rw [this, split_append]
    simp [split]

theorem indexOfFrom_sound (word : Str) (ws : List Str) (i r : Nat)
    (h : indexOfFrom word ws i = (r : Int)) : ∃ j, r = i + j ∧ ws[j]? = some word := by
  induction ws generalizing i with
  | nil =>
    simp only [indexOfFrom] at h
    omega
  | cons w ws ih =>
    simp only [indexOfFrom] at h
    split at h
    · rename_i hw
      exact ⟨0, by omega, by simp [hw]⟩
    · obtain ⟨j, hj, hget⟩ := ih (i + 1) h
      exact ⟨j + 1, by omega, by simpa using hget⟩

/-- The entry at the index of a word of the list is that word, also when the list has
repeated words. -/
theorem wordAt_indexOf {wordlist : List Str} {word : Str} (h : word ∈ wordlist) :
    ∃ i : Nat, indexOf wordlist word = (i : Int) ∧ i < wordlist.length ∧
      wordAt wordlist i = word := by
  obtain ⟨i, hi, hlt⟩ := indexOf_of_mem h
  obtain ⟨j, hj, hget⟩ := indexOfFrom_sound word wordlist 0 i hi
  have hij : i = j := by omega
  subst hij
  exact ⟨i, hi, hlt, by simp [wordAt, hget]⟩

/-- Encoding what the decoder returned gives the normalized text back. -/
theorem encode_decoded (sha256 : Bytes → Bytes) (nfkd : Str → Str) (mnemonic : Option Str)
    (wordlist : List Str) (ent : Bytes) (hwl : wordlist.length ≤ 2048)
    (hok : mnemonicToEntropy sha256 nfkd mnemonic wordlist = .ok ent) :
    entropyToMnemonic sha256 ent wordlist = .ok (normalize nfkd mnemonic) := by
  obtain ⟨hmod, hmem⟩ := words_of_valid (validateMnemonic_of_ok hok)
  have hpos := split_length_pos ' ' (normalize nfkd mnemonic)
  have hcount : (split ' ' (normalize nfkd mnemonic)).length
      = 3 * ((split ' ' (normalize nfkd mnemonic)).length / 3) := by omega
  obtain ⟨ent', _, _, h3, h4⟩ := mnemonicToEntropy_of_words sha256 nfkd mnemonic wordlist _
    ((split ' ' (normalize nfkd mnemonic)).length / 3) rfl hcount (by omega) hmem hwl
  rw [hok] at h4
  by_cases hcs : checksumBits sha256 ent' = (wordBits wordlist
      (split ' ' (normalize nfkd mnemonic))).drop
        (32 * ((split ' ' (normalize nfkd mnemonic)).length / 3))
  swap
  · rw [if_neg hcs] at h4
    exact absurd h4 (by simp)
  rw [if_pos hcs] at h4
  have hent : ent = ent' := by
    injection h4
  subst hent
  have hbits : bytesToBinary ent ++ checksumBits sha256 ent
      = wordBits wordlist (split ' ' (normalize nfkd mnemonic)) := by
    rw [h3, hcs, List.take_append_drop]
  have hpieces : ∀ p ∈ (split ' ' (normalize nfkd mnemonic)).map
      (fun word => lpad (intToString2 (indexOf wordlist word)) ['0'] 11), p.length = 11 := by
    intro p hp
    obtain ⟨w, hw, rfl⟩ := List.mem_map.mp hp
    exact (wordBits_piece hwl (hmem w hw)).1
  have hmatch : regexMatch 11 (bytesToBinary ent ++ checksumBits sha256 ent)
      = some ((split ' ' (normalize nfkd mnemonic)).map
        (fun word => lpad (intToString2 (indexOf wordlist word)) ['0'] 11)) := by
    rw [hbits]
    exact regexMatch_join 11 (by decide) _ hpieces
      (by simpa using split_ne_nil ' ' (normalize nfkd mnemonic))
  rw [entropyToMnemonic_of_regexMatch sha256 ent wordlist _ hmatch, List.map_map]
  have hwords : (split ' ' (normalize nfkd mnemonic)).map
      ((fun c => wordAt wordlist (binaryToByte c)) ∘
        fun word => lpad (intToString2 (indexOf wordlist word)) ['0'] 11)
      = split ' ' (normalize nfkd mnemonic) := by
    conv_rhs => rw [← List.map_id (split ' ' (normalize nfkd mnemonic))]
    apply List.map_congr_left
    intro w hw
    obtain ⟨i, hi, _, hat⟩ := wordAt_indexOf (hmem w hw)
    simp only [Function.comp_apply, id_eq]
    rw [hi, intToString2_natCast, binaryToByte_lpad, binaryToByte_toString2, hat]
  rw [hwords, join_split]

/-- A text with a leading, trailing or doubled space still has one after normalization, so
its normalized form has an empty piece. -/
theorem nil_mem_split_nfkd (nfkd : Str → Str) (hn : NfkdKeepsSpace nfkd) (hnil : nfkd [] = [])
    (t : Str) (h : t.head? = some ' ' ∨ t.getLast? = some ' ' ∨ [' ', ' '] <:+: t) :
    [] ∈ split ' ' (nfkd t) := by
  rcases h with h | h | h
  · obtain ⟨b, rfl⟩ := List.head?_eq_some_iff.mp h
    have := hn [] b
    rw [List.nil_append, hnil, List.nil_append] at this
    rw [this]
    simp [split]
  · obtain ⟨a, rfl⟩ := List.getLast?_eq_some_iff.mp h
    rw [hn a [], hnil, split_append]
    simp [split]
  · obtain ⟨a, b, rfl⟩ := h
    have h1 : a ++ [' ', ' '] ++ b = a ++ ' ' :: ([] ++ ' ' :: b) := by simp
    rw [h1, hn a, hn [] b, hnil, List.nil_append, split_append]
    simp [split]

/-- A buffer the decoder returns has `4 * k` bytes with `1 ≤ k ≤ 256`: the checksum segment
of `k` bits equals a prefix of the 256-bit digest string. -/
theorem decoded_shape (sha256 : Bytes → Bytes) (nfkd : Str → Str) (mnemonic : Option Str)
    (wordlist : List Str) (ent : Bytes) (hd : IsDigest sha256) (hwl : wordlist.length ≤ 2048)
    (hok : mnemonicToEntropy sha256 nfkd mnemonic wordlist = .ok ent) :
    ∃ k : Nat, 1 ≤ k ∧ k ≤ 256 ∧ ent.length = 4 * k ∧ IsBuffer ent := by
  obtain ⟨hmod, hmem⟩ := words_of_valid (validateMnemonic_of_ok hok)
  have hpos := split_length_pos ' ' (normalize nfkd mnemonic)
  have hcount : (split ' ' (normalize nfkd mnemonic)).length
      = 3 * ((split ' ' (normalize nfkd mnemonic)).length / 3) := by omega
  obtain ⟨ent', h1, h2, _, h4⟩ := mnemonicToEntropy_of_words sha256 nfkd mnemonic
    wordlist _ ((split ' ' (normalize nfkd mnemonic)).length / 3) rfl hcount (by omega)
    hmem hwl
  rw [hok] at h4
  by_cases hc : checksumBits sha256 ent' = (wordBits wordlist
      (split ' ' (normalize nfkd mnemonic))).drop
        (32 * ((split ' ' (normalize nfkd mnemonic)).length / 3))
  · rw [if_pos hc] at h4
    have hent : ent = ent' := by
      injection h4
    subst hent
    have hle := checksumBits_length_le sha256 hd ent
    rw [hc, List.length_drop, wordBits_length hwl hmem] at hle
    exact ⟨_, by omega, by omega, h1, h2⟩
  · rw [if_neg hc] at h4
    exact absurd h4 (by simp)

/-- C17 as stated fails in its last part: an accepted mnemonic can be the encoding of more
than one entropy. With the SHA-256 digest and the sample list of 2048 distinct words, the
accepted mnemonic `0 0 1` is the encoding of the 4-byte buffer `00 00 00 00` and of the
3-byte buffer `00 00 01`. With a list of 2048 entries in which a word is repeated, the
accepted mnemonic `0 1 0` is the encoding of the 4-byte buffers `00 00 04 00` and
`00 00 04 01`. -/
theorem canonical_form_counterexample :
    (demoWordlist.length = 2048 ∧ demoWordlist.Nodup ∧
      validateMnemonic fipsSha256 id (some "0 0 1".toList) demoWordlist = true ∧
      entropyToMnemonic fipsSha256 [0, 0, 0, 0] demoWordlist = .ok "0 0 1".toList ∧
      entropyToMnemonic fipsSha256 [0, 0, 1] demoWordlist = .ok "0 0 1".toList ∧
      ([0, 0, 1] : Bytes) ≠ [0, 0, 0, 0]) ∧
    (dupWordlist.length = 2048 ∧
      validateMnemonic fipsSha256 id (some "0 1 0".toList) dupWordlist = true ∧
      entropyToMnemonic fipsSha256 [0, 0, 4, 0] dupWordlist = .ok "0 1 0".toList ∧
      entropyToMnemonic fipsSha256 [0, 0, 4, 1] dupWordlist = .ok "0 1 0".toList ∧
      ([0, 0, 4, 1] : Bytes) ≠ [0, 0, 4, 0]) := by
  refine ⟨⟨demoWordlist_good.length_eq, demoWordlist_good.nodup, by decide!, by decide!,
    by decide!, by decide⟩, by simp [dupWordlist, demoWordlist], by decide!, by decide!,
    by decide!, by decide⟩

/-- C17, amended. For every word list of exactly 2048 entries and every mnemonic text `m`
on which `mnemonicToEntropy` returns a buffer, `entropyToMnemonic` of that buffer is the
normalized text of `m`. Consequently, when the list does not contain the empty string, the
normalized text has no leading, trailing or doubled space, and neither has `m` itself when
the normalizer keeps spaces and the empty text; and when the words are pairwise distinct,
space-free and NFKD-stable, the returned buffer is the only buffer of `4 * k` bytes,
`k ≤ 256`, whose encoding is that text. -/
theorem canonical_form (sha256 : Bytes → Bytes) (nfkd : Str → Str) (mnemonic : Option Str)
    (wordlist : List Str) (ent : Bytes) (hwl : wordlist.length = 2048)
    (hok : mnemonicToEntropy sha256 nfkd mnemonic wordlist = .ok ent) :
    entropyToMnemonic sha256 ent wordlist = .ok (normalize nfkd mnemonic) ∧
    ([] ∉ wordlist →
      (normalize nfkd mnemonic).head? ≠ some ' ' ∧
      (normalize nfkd mnemonic).getLast? ≠ some ' ' ∧
      ¬ [' ', ' '] <:+: normalize nfkd mnemonic) ∧
    ([] ∉ wordlist → NfkdKeepsSpace nfkd → nfkd [] = [] →
      ∀ t : Str, mnemonic = some t →
        t.head? ≠ some ' ' ∧ t.getLast? ≠ some ' ' ∧ ¬ [' ', ' '] <:+: t) ∧
    (IsDigest sha256 → NfkdKeepsSpace nfkd → GoodWordlist nfkd wordlist →
      ∀ e : Bytes, IsBuffer e → e.length % 4 = 0 → e.length ≤ 1024 →
        entropyToMnemonic sha256 e wordlist = .ok (normalize nfkd mnemonic) → e = ent) := by
  have henc := encode_decoded sha256 nfkd mnemonic wordlist ent (le_of_eq hwl) hok
  obtain ⟨hmod, hmem⟩ := words_of_valid (validateMnemonic_of_ok hok)
  refine ⟨henc, ?_, ?_, ?_⟩
  · intro hnil
    have hno : [] ∉ split ' ' (normalize nfkd mnemonic) := fun h => hnil (hmem [] h)
    refine ⟨fun h => hno (nil_mem_split ' ' _ (Or.inl h)),
      fun h => hno (nil_mem_split ' ' _ (Or.inr (Or.inl h))),
      fun h => hno (nil_mem_split ' ' _ (Or.inr (Or.inr h)))⟩
  · intro hnil hn hn0 t ht
    subst ht
    have hno : [] ∉ split ' ' (nfkd t) := fun h => hnil (hmem [] h)
    refine ⟨fun h => hno (nil_mem_split_nfkd nfkd hn hn0 t (Or.inl h)),
      fun h => hno (nil_mem_split_nfkd nfkd hn hn0 t (Or.inr (Or.inl h))),
      fun h => hno (nil_mem_split_nfkd nfkd hn hn0 t (Or.inr (Or.inr h)))⟩
  · intro hd hn hgood e he h4 hmax henc'
    obtain ⟨k, _, hklen, hk4, hbuf⟩ :=
      decoded_shape sha256 nfkd mnemonic wordlist ent hd (le_of_eq hwl) hok
    have hne : e ≠ [] := ((entropyToMnemonic_ok_iff sha256 e wordlist).1).mp ⟨_, henc'⟩
    have hepos : 0 < e.length := List.length_pos.mpr hne
    obtain ⟨m1, hm1, _, hdec1⟩ := encode_decode_le_256 sha256 nfkd hd hn wordlist hgood e he
      (e.length / 4) (by omega) (by omega) (by omega)
    obtain ⟨m2, hm2, _, hdec2⟩ := encode_decode_le_256 sha256 nfkd hd hn wordlist hgood ent
      hbuf k hk4 (by omega) hklen
    rw [henc'] at hm1
    rw [henc] at hm2
    have h1 : m1 = normalize nfkd mnemonic := by
      injection hm1 with h
      exact h.symm
    have h2 : m2 = normalize nfkd mnemonic := by
      injection hm2 with h
      exact h.symm
    rw [h1] at hdec1
    rw [h2, hdec1] at hdec2
    injection hdec2

/-- C17 amended, at the accepted mnemonic `0 0 1` of the sample word list under SHA-256,
which decodes to `00 00 00 00`. -/
theorem canonical_form_witness :
    demoWordlist.length = 2048 ∧
    mnemonicToEntropy fipsSha256 id (some "0 0 1".toList) demoWordlist = .ok [0, 0, 0, 0] ∧
    entropyToMnemonic fipsSha256 [0, 0, 0, 0] demoWordlist
      = .ok (normalize id (some "0 0 1".toList)) := by
  have hok : mnemonicToEntropy fipsSha256 id (some "0 0 1".toList) demoWordlist
      = .ok [0, 0, 0, 0] := by decide!
  exact ⟨demoWordlist_good.length_eq, hok,
    (canonical_form fipsSha256 id (some "0 0 1".toList) demoWordlist [0, 0, 0, 0]
      demoWordlist_good.length_eq hok).1⟩

/-! ## Upper limit -/

theorem join_nil_length_le (n : Nat) (ws : List Str) (h : ∀ w ∈ ws, w.length ≤ n) :
    (join [] ws).length ≤ ws.length * n := by
  induction ws with
  | nil => simp [join]
  | cons w ws ih =>
    rw [join_nil_cons, List.length_append, List.length_cons, Nat.add_mul]
    have h1 := ih (fun v hv => h v (List.mem_cons_of_mem _ hv))
    have h2 := h w (List.mem_cons_self _ _)
    omega

theorem matchLoop_piece_le (n fuel : Nat) (s : Str) : ∀ p ∈ matchLoop n fuel s, p.length ≤ n := by
  induction fuel generalizing s with
  | zero => intro p hp; simp [matchLoop] at hp
  | succ fuel ih =>
    intro p hp
    simp only [matchLoop] at hp
    split at hp
    · simp at hp
    · rcases List.mem_cons.mp hp with h | h
      · rw [h, List.length_take]
        omega
      · exact ih _ p h

theorem wordBits_length_ge (wordlist words : List Str) :
    words.length * 11 ≤ (wordBits wordlist words).length := by
  unfold wordBits
  have := join_nil_length_ge 11
    (words.map fun word => lpad (intToString2 (indexOf wordlist word)) ['0'] 11) (by
      intro p hp
      obtain ⟨w, _, rfl⟩ := List.mem_map.mp hp
      exact lpad_length_ge _ _)
  simpa using this

/-- A text of more than 768 words is rejected: its checksum segment is longer than the 256
bits `checksumBits` can return. -/
theorem mnemonicToEntropy_too_long (sha256 : Bytes → Bytes) (hd : IsDigest sha256)
    (nfkd : Str → Str) (mnemonic : Option Str) (wordlist : List Str)
    (hlong : 768 < (split ' ' (normalize nfkd mnemonic)).length) :
    ∃ err, mnemonicToEntropy sha256 nfkd mnemonic wordlist = .error err := by
  have hbits := wordBits_length_ge wordlist (split ' ' (normalize nfkd mnemonic))
  simp only [mnemonicToEntropy]
  split
  · exact ⟨_, rfl⟩
  · split
    · exact ⟨_, rfl⟩
    · split
      · exact ⟨_, rfl⟩
      · rename_i chunks _
        have hne : checksumBits sha256 (bufferFrom (chunks.map binaryToByte))
            ≠ (wordBits wordlist (split ' ' (normalize nfkd mnemonic))).drop
              ((wordBits wordlist (split ' ' (normalize nfkd mnemonic))).length / 33 * 32) := by
          intro heq
          have hlen := congrArg List.length heq
          have hle := checksumBits_length_le sha256 hd (bufferFrom (chunks.map binaryToByte))
          rw [List.length_drop] at hlen
          omega
        rw [if_pos hne]
        exact ⟨_, rfl⟩

/-- Normalizing a join of words cannot reduce the number of space-separated pieces. -/
theorem split_nfkd_join_length (nfkd : Str → Str) (hn : NfkdKeepsSpace nfkd) (ws : List Str)
    (hne : ws ≠ []) : ws.length ≤ (split ' ' (nfkd (join [' '] ws))).length := by
  induction ws with
  | nil => exact absurd rfl hne
  | cons w ws ih =>
    cases ws with
    | nil => exact split_length_pos ' ' _
    | cons v vs =>
      rw [join_sep_cons_cons, List.append_assoc, List.singleton_append, hn, split_append,
        List.length_append]
      have h1 := split_length_pos ' ' (nfkd w)
      have h2 := ih (by simp)
      simp only [List.length_cons] at h2 ⊢
      omega

/-- The encoder splits more than 1024 bytes into more than 768 groups. -/
theorem encode_long (sha256 : Bytes → Bytes) (hd : IsDigest sha256) (e : Bytes)
    (wordlist : List Str) (hlong : 1024 < e.length) :
    ∃ words : List Str, 768 < words.length ∧
      entropyToMnemonic sha256 e wordlist = .ok (join [' '] words) := by
  have hcs : (checksumBits sha256 e).length = 256 := by
    simp only [checksumBits, List.length_take]
    rw [bytesToBinary_length (hd e).2, (hd e).1]
    omega
  have hge := bytesToBinary_length_ge e
  have hlen : 8456 ≤ (bytesToBinary e ++ checksumBits sha256 e).length := by
    rw [List.length_append, hcs]
    omega
  have hne : bytesToBinary e ++ checksumBits sha256 e ≠ [] := by
    intro h
    rw [h] at hlen
    simp at hlen
  have hmatch : regexMatch 11 (bytesToBinary e ++ checksumBits sha256 e)
      = some (matchLoop 11 (bytesToBinary e ++ checksumBits sha256 e).length
          (bytesToBinary e ++ checksumBits sha256 e)) := by
    simp only [regexMatch, if_neg hne]
  have hcover := matchLoop_covers 11 (by decide)
    (bytesToBinary e ++ checksumBits sha256 e).length
    (bytesToBinary e ++ checksumBits sha256 e) (le_refl _)
  have hle := join_nil_length_le 11 _ (matchLoop_piece_le 11
    (bytesToBinary e ++ checksumBits sha256 e).length
    (bytesToBinary e ++ checksumBits sha256 e))
  rw [hcover] at hle
  refine ⟨_, ?_, entropyToMnemonic_of_regexMatch sha256 e wordlist _ hmatch⟩
  rw [List.length_map]
  omega

/-- C18. Upper limit from the 256-bit digest: `checksumBits` never returns more than 256
bits, so for every word list every mnemonic of more than 768 words makes
`mnemonicToEntropy` throw and `validateMnemonic` return `false`; in particular, for every
entropy of more than 1024 bytes, `entropyToMnemonic` returns a text of more than 768 words
that `validateMnemonic` rejects. -/
theorem upper_limit (sha256 : Bytes → Bytes) (nfkd : Str → Str) (hd : IsDigest sha256)
    (wordlist : List Str) :
    (∀ b, (checksumBits sha256 b).length ≤ 256) ∧
    (∀ mnemonic, 768 < (split ' ' (normalize nfkd mnemonic)).length →
      (∃ err, mnemonicToEntropy sha256 nfkd mnemonic wordlist = .error err) ∧
      validateMnemonic sha256 nfkd mnemonic wordlist = false) ∧
    (NfkdKeepsSpace nfkd → ∀ e : Bytes, 1024 < e.length →
      ∃ t, entropyToMnemonic sha256 e wordlist = .ok t ∧
        768 < (split ' ' (normalize nfkd (some t))).length ∧
        (∃ err, mnemonicToEntropy sha256 nfkd (some t) wordlist = .error err) ∧
        validateMnemonic sha256 nfkd (some t) wordlist = false) := by
  have hlong : ∀ mnemonic, 768 < (split ' ' (normalize nfkd mnemonic)).length →
      (∃ err, mnemonicToEntropy sha256 nfkd mnemonic wordlist = .error err) ∧
      validateMnemonic sha256 nfkd mnemonic wordlist = false := by
    intro mnemonic h
    obtain ⟨err, herr⟩ := mnemonicToEntropy_too_long sha256 hd nfkd mnemonic wordlist h
    exact ⟨⟨err, herr⟩, validateMnemonic_of_error herr⟩
  refine ⟨checksumBits_length_le sha256 hd, hlong, ?_⟩
  intro hn e he
  obtain ⟨words, hcount, henc⟩ := encode_long sha256 hd e wordlist he
  have hne : words ≠ [] := by
    intro h0
    rw [h0] at hcount
    simp at hcount
  have hsplit : 768 < (split ' ' (normalize nfkd (some (join [' '] words)))).length := by
    have := split_nfkd_join_length nfkd hn words hne
    simp only [normalize, Option.getD_some]
    omega
  exact ⟨_, henc, hsplit, hlong _ hsplit⟩

/-- C18, with the SHA-256 digest and the sample word list: the text of 771 words `0` is
rejected, and so is the mnemonic of 1028 zero bytes. -/
theorem upper_limit_witness :
    IsDigest fipsSha256 ∧
    768 < (split ' ' (normalize id (some (join [' '] (List.replicate 771 ['0']))))).length ∧
    validateMnemonic fipsSha256 id (some (join [' '] (List.replicate 771 ['0']))) demoWordlist
      = false ∧
    ∃ t, entropyToMnemonic fipsSha256 (List.replicate 1028 0) demoWordlist = .ok t ∧
      validateMnemonic fipsSha256 id (some t) demoWordlist = false := by
  have h := upper_limit fipsSha256 id fipsSha256_isDigest demoWordlist
  have hcount : 768
      < (split ' ' (normalize id (some (join [' '] (List.replicate 771 ['0']))))).length := by
    decide!
  obtain ⟨t, ht, _, _, hv⟩ := h.2.2 id_keepsSpace (List.replicate 1028 0)
    (by rw [List.length_replicate]; omega)
  exact ⟨fipsSha256_isDigest, hcount, (h.2.1 _ hcount).2, t, ht, hv⟩

/-! ## Sample values with the SHA-256 digest -/

/-- Word indices of three encodings under SHA-256: the entropy `13 37 55 ff` of the readme
example, eight bytes `04`, and the four bytes `qwer` of the tests' stubbed random source. -/
theorem encode_fips_indices :
    (entropyToMnemonic fipsSha256 [0x13, 0x37, 0x55, 0xff] demoWordlist).map
        (fun m => (split ' ' m).map binaryToByte) = .ok [153, 1493, 1022] ∧
    (generateMnemonic fipsSha256 (some 64) (fun _ => List.replicate 8 4) demoWordlist).map
        (fun m => (split ' ' m).map binaryToByte) = .ok [32, 257, 8, 64, 514, 19] ∧
    (generateMnemonic fipsSha256 (some 32) (fun _ => [0x71, 0x77, 0x65, 0x72])
        demoWordlist).map (fun m => (split ' ' m).map binaryToByte) = .ok [907, 1497, 741] := by
  refine ⟨by decide!, by decide!, by decide!⟩

end B39
